import Mathlib

/-!
# Verification of the photo-challenge aggregation / ranking / pagination core

Shallow embedding of the pure core of the repository
(`src/core_logic.py`, `src/commands.py`, `src/main.py`):

* the pager `split_message` (commands.py, lines 311-338), modelled over
  `List Char`;
* the reaction aggregator `get_post_data` (core_logic.py, lines 55-86);
* the grouping / dense-ranking logic shared by
  `generate_markdown_output` (core_logic.py, lines 114-187) and
  `generate_enhanced_ranking` (commands.py, lines 248-309), plus the
  legacy variant in main.py (lines 166-229) that does not filter
  zero-reaction posts;
* the thread summary metrics (commands.py, lines 120-132);
* the dict-copying row flattening of `generate_csv`
  (core_logic.py, lines 88-99), modelled over an explicit heap so that
  the absence of mutation of the input dicts is expressible.

Reference definitions written from the specification's wording (for
refinement-style claims) are clearly marked as such in their doc
comments; everything else is translated from the source.
-/

/-! ### Pager: split_message (src/commands.py, lines 311-338) -/

/-- Whitespace as far as Python's `str.strip` / `str.rstrip` are concerned,
restricted to the whitespace characters that occur in text handled by the
bot. -/
def pySpace (c : Char) : Bool :=
  c == ' ' || c == '\n' || c == '\t' || c == '\r'

/-- Python `s.strip()`: remove leading and trailing whitespace. -/
def pyStrip (s : List Char) : List Char :=
  ((s.dropWhile pySpace).reverse.dropWhile pySpace).reverse

/-- Python `message.split('\n')`: the list of lines; always non-empty. -/
def splitNl : List Char → List (List Char)
  | [] => [[]]
  | c :: rest =>
    if c = '\n' then [] :: splitNl rest
    else
      match splitNl rest with
      | [] => [[c]]
      | l :: ls => (c :: l) :: ls

/-- Python `"\n".join(parts)`. -/
def joinNl : List (List Char) → List Char
  | [] => []
  | [p] => p
  | p :: q :: ps => p ++ '\n' :: joinNl (q :: ps)

/-- The inner while-loop of split_message ("Single line is too long, split it
further"): while `len(line) > max_length`, emit `line[:max_length]` and keep
`line[max_length:]`.  Returns the emitted slices and the final remainder.
Written with fuel so that it computes by kernel reduction; one unit of fuel is
spent per emitted slice, and `line.length` units always suffice when `0 < m`.
(For `m = 0` the Python loop would not terminate at all; every claim assumes a
maximum length of at least 1.) -/
def hardSplitFuel (m : Nat) : Nat → List Char → List (List Char) × List Char
  | 0, line => ([], line)
  | fuel + 1, line =>
    if m < line.length then
      let r := hardSplitFuel m fuel (line.drop m)
      (line.take m :: r.1, r.2)
    else ([], line)

/-- The while-loop of split_message, with enough fuel for any `m ≥ 1`. -/
def hardSplit (m : Nat) (line : List Char) : List (List Char) × List Char :=
  hardSplitFuel m line.length line

/-- The for-loop of split_message, threading `(parts, current_part)`.
Branches mirror the source: if adding this line would exceed the limit then
either flush the non-empty buffer (and start a new buffer with the line), or
hard-split the over-long line; otherwise accumulate the line into the
buffer. -/
def splitLoop (m : Nat) : List (List Char) → List (List Char) → List Char →
    List (List Char) × List Char
  | [], parts, cur => (parts, cur)
  | line :: rest, parts, cur =>
    if m < cur.length + line.length + 1 then
      match cur with
      | [] =>
        let r := hardSplit m line
        splitLoop m rest (parts ++ r.1) (if r.2 = [] then [] else r.2 ++ ['\n'])
      | c :: cs =>
        splitLoop m rest (parts ++ [pyStrip (c :: cs)]) (line ++ ['\n'])
    else
      splitLoop m rest parts (cur ++ line ++ ['\n'])

/-- `split_message` (src/commands.py, lines 311-338): split a message into
chunks intended to fit Discord's character limit. -/
def split_message (message : List Char) (maxLength : Nat) : List (List Char) :=
  if message.length ≤ maxLength then [message]
  else
    let r := splitLoop maxLength (splitNl message) [] []
    if pyStrip r.2 = [] then r.1 else r.1 ++ [pyStrip r.2]

example : split_message "abc".toList 5 = ["abc".toList] := by decide

example : split_message "aa\nbb\ncc".toList 6 =
    ["aa\nbb".toList, "cc".toList] := by decide

example : split_message (List.replicate 12 'x') 5 =
    [List.replicate 5 'x', List.replicate 5 'x', List.replicate 2 'x'] := by decide

example : split_message "aa\nbbbbbbbb".toList 5 =
    ["aa".toList, "bbbbbbbb".toList] := by decide

/-! ### Pager lemmas: content preservation up to whitespace -/

/-- The non-whitespace characters of a text, in order. -/
def nonWS (s : List Char) : List Char := s.filter (fun c => !pySpace c)

theorem nonWS_append (s t : List Char) : nonWS (s ++ t) = nonWS s ++ nonWS t :=
  List.filter_append _ _

theorem nonWS_nl_cons (l : List Char) : nonWS ('\n' :: l) = nonWS l := by
  simp [nonWS, List.filter, pySpace]

theorem nonWS_cons_ws {c : Char} (h : pySpace c) (l : List Char) :
    nonWS (c :: l) = nonWS l := by
  simp [nonWS, List.filter_cons, h]

theorem nonWS_cons_not {c : Char} (h : ¬ pySpace c) (l : List Char) :
    nonWS (c :: l) = c :: nonWS l := by
  simp [nonWS, List.filter_cons, h]

theorem nonWS_dropWhile (s : List Char) :
    nonWS (s.dropWhile pySpace) = nonWS s := by
  induction s with
  | nil => rfl
  | cons c rest ih =>
    by_cases h : pySpace c
    · simpa [List.dropWhile, h, nonWS, List.filter] using ih
    · simp [List.dropWhile, h]

theorem nonWS_reverse (s : List Char) : nonWS s.reverse = (nonWS s).reverse :=
  List.filter_reverse _ _

theorem nonWS_pyStrip (s : List Char) : nonWS (pyStrip s) = nonWS s := by
  unfold pyStrip
  rw [nonWS_reverse, nonWS_dropWhile, nonWS_reverse, List.reverse_reverse,
    nonWS_dropWhile]

theorem nonWS_of_pyStrip_nil {s : List Char} (h : pyStrip s = []) :
    nonWS s = [] := by
  rw [← nonWS_pyStrip, h]; rfl

theorem splitNl_ne_nil (s : List Char) : splitNl s ≠ [] := by
  cases s with
  | nil => simp [splitNl]
  | cons c rest =>
    by_cases h : c = '\n'
    · simp [splitNl, h]
    · simp only [splitNl, if_neg h]
      cases splitNl rest <;> simp

theorem joinNl_cons_cons (p : List Char) (q : List Char) (ps : List (List Char)) :
    joinNl (p :: q :: ps) = p ++ '\n' :: joinNl (q :: ps) := rfl

theorem joinNl_splitNl (s : List Char) : joinNl (splitNl s) = s := by
  induction s with
  | nil => rfl
  | cons c rest ih =>
    by_cases h : c = '\n'
    · subst h
      have hs : splitNl ('\n' :: rest) = [] :: splitNl rest := by
        simp [splitNl]
      rw [hs]
      rcases hr : splitNl rest with _ | ⟨l, ls⟩
      · exact absurd hr (splitNl_ne_nil rest)
      · rw [hr] at ih
        rw [joinNl_cons_cons]
        simpa using ih
    · simp only [splitNl, if_neg h]
      rcases hr : splitNl rest with _ | ⟨l, ls⟩
      · exact absurd hr (splitNl_ne_nil rest)
      · rw [hr] at ih
        cases ls with
        | nil => simpa [joinNl] using ih
        | cons q qs =>
          rw [joinNl_cons_cons]
          rw [joinNl_cons_cons] at ih
          simpa using ih

theorem nonWS_joinNl (ps : List (List Char)) :
    nonWS (joinNl ps) = nonWS ps.flatten := by
  induction ps with
  | nil => rfl
  | cons p qs ih =>
    cases qs with
    | nil => simp [joinNl, nonWS_append]
    | cons q rest =>
      rw [joinNl_cons_cons, List.flatten_cons, nonWS_append, nonWS_append,
        nonWS_nl_cons, ih, List.flatten_cons, nonWS_append]

theorem hardSplitFuel_content (m : Nat) :
    ∀ (fuel : Nat) (line : List Char),
      (hardSplitFuel m fuel line).1.flatten ++ (hardSplitFuel m fuel line).2 = line := by
  intro fuel
  induction fuel with
  | zero => intro line; rfl
  | succ n ih =>
    intro line
    by_cases h : m < line.length
    · simp only [hardSplitFuel, if_pos h, List.flatten_cons, List.append_assoc]
      rw [ih (line.drop m), List.take_append_drop]
    · simp [hardSplitFuel, if_neg h]

theorem hardSplit_content (m : Nat) (line : List Char) :
    (hardSplit m line).1.flatten ++ (hardSplit m line).2 = line :=
  hardSplitFuel_content m line.length line

theorem nonWS_singleton_nl : nonWS ['\n'] = [] := rfl

theorem splitLoop_content (m : Nat) :
    ∀ (lines : List (List Char)) (parts : List (List Char)) (cur : List Char),
      nonWS ((splitLoop m lines parts cur).1.flatten ++ (splitLoop m lines parts cur).2)
        = nonWS (parts.flatten ++ cur ++ lines.flatten) := by
  intro lines
  induction lines with
  | nil =>
    intro parts cur
    simp [splitLoop, nonWS_append]
  | cons line rest ih =>
    intro parts cur
    by_cases h1 : m < cur.length + line.length + 1
    · cases cur with
      | nil =>
        rw [show splitLoop m (line :: rest) parts []
            = splitLoop m rest (parts ++ (hardSplit m line).1)
                (if (hardSplit m line).2 = [] then []
                 else (hardSplit m line).2 ++ ['\n']) from by
          simp only [splitLoop, if_pos h1]]
        rw [ih]
        have hc := hardSplit_content m line
        by_cases h3 : (hardSplit m line).2 = []
        · rw [if_pos h3]
          rw [h3, List.append_nil] at hc
          simp only [List.flatten_append, nonWS_append, List.flatten_cons,
            List.append_nil, List.nil_append, List.append_assoc, hc]
        · rw [if_neg h3]
          have hEq := congrArg nonWS hc
          simp only [nonWS_append] at hEq
          simp only [List.flatten_append, List.flatten_cons, nonWS_append,
            List.append_assoc, nonWS_singleton_nl, List.append_nil, List.nil_append]
          rw [← List.append_assoc (nonWS (hardSplit m line).1.flatten)
            (nonWS (hardSplit m line).2) (nonWS rest.flatten), hEq]
      | cons c cs =>
        rw [show splitLoop m (line :: rest) parts (c :: cs)
            = splitLoop m rest (parts ++ [pyStrip (c :: cs)]) (line ++ ['\n']) from by
          simp only [splitLoop, if_pos h1]]
        rw [ih]
        by_cases hcc : pySpace c
        · simp [List.flatten_append, List.flatten_cons, nonWS_append, nonWS_pyStrip,
            nonWS_singleton_nl, nonWS_nl_cons, List.append_assoc, nonWS_cons_ws hcc]
        · simp [List.flatten_append, List.flatten_cons, nonWS_append, nonWS_pyStrip,
            nonWS_singleton_nl, nonWS_nl_cons, List.append_assoc, nonWS_cons_not hcc]
    · rw [show splitLoop m (line :: rest) parts cur
          = splitLoop m rest parts (cur ++ line ++ ['\n']) from by
        simp only [splitLoop, if_neg h1]]
      rw [ih]
      simp [List.flatten_cons, nonWS_append, nonWS_singleton_nl, nonWS_nl_cons,
        List.append_assoc]

/-! ### Claims about the pager -/

/-- Claim C1: evaluation of `split_message` at a failing input.  For the
message `"aa\nbbbbbbbb"` and maximum length 5, the pager returns the chunk
`"bbbbbbbb"`, whose trimmed length is 8 > 5: a line longer than the maximum
that arrives while the running buffer is non-empty is emitted as an oversized
chunk instead of being hard-split (the hard-split branch of the source only
runs when the buffer is empty), contradicting both the claim and the
function's own docstring ("chunks that fit Discord's character limit"). -/
theorem split_message_oversized_chunk :
    split_message "aa\nbbbbbbbb".toList 5 = ["aa".toList, "bbbbbbbb".toList] ∧
    ¬ (pyStrip "bbbbbbbb".toList).length ≤ 5 := by
  constructor
  · decide
  · decide

/-- Claim C4 (counterexample): the chunk list does not reproduce the text up
to per-chunk trimming when a hard split happens.  For twelve `x`s and limit 5
the text contains no whitespace at all and neither does any chunk, so trimming
is the identity everywhere, yet joining the chunks with newline separators
does not return the original text: newlines are inserted in the middle of the
hard-split line. -/
theorem split_message_roundtrip_cex :
    split_message (List.replicate 12 'x') 5 =
      [List.replicate 5 'x', List.replicate 5 'x', List.replicate 2 'x'] ∧
    joinNl (split_message (List.replicate 12 'x') 5) ≠ List.replicate 12 'x' ∧
    pyStrip (joinNl (split_message (List.replicate 12 'x') 5))
      ≠ pyStrip (List.replicate 12 'x') ∧
    joinNl ((split_message (List.replicate 12 'x') 5).map pyStrip)
      ≠ List.replicate 12 'x' := by
  refine ⟨by decide, by decide, by decide, by decide⟩

/-- Claim C4 (amended): concatenating the pager's chunks in order with
newline separators preserves the non-whitespace content of the text exactly
and in order — reconstruction is exact only up to whitespace (per-chunk
trimming, and the newline separators introduced where an over-long line is
hard-split); and any text of length at most the limit is returned as a
single-element chunk list completely unchanged. -/
theorem split_message_content (msg : List Char) (m : Nat) (h : 1 ≤ m) :
    nonWS (joinNl (split_message msg m)) = nonWS msg ∧
    (msg.length ≤ m → split_message msg m = [msg]) := by
  constructor
  · unfold split_message
    by_cases hle : msg.length ≤ m
    · rw [if_pos hle]
      rfl
    · rw [if_neg hle]
      have hinv := splitLoop_content m (splitNl msg) [] []
      simp only [List.flatten_nil, List.nil_append] at hinv
      have hmsg : nonWS (splitNl msg).flatten = nonWS msg := by
        rw [← nonWS_joinNl, joinNl_splitNl]
      by_cases h2 : pyStrip (splitLoop m (splitNl msg) [] []).2 = []
      · rw [if_pos h2, nonWS_joinNl]
        have hz := nonWS_of_pyStrip_nil h2
        rw [← hmsg, ← hinv, nonWS_append, hz, List.append_nil]
      · rw [if_neg h2, nonWS_joinNl, List.flatten_append, List.flatten_cons,
          List.flatten_nil, List.append_nil, nonWS_append, nonWS_pyStrip,
          ← nonWS_append, hinv, hmsg]
  · intro hle
    unfold split_message
    rw [if_pos hle]

/-- Claim C4 (witness for the amended theorem): the content-preservation
conclusion at a concrete message and limit. -/
theorem split_message_content_witness :
    nonWS (joinNl (split_message "ab cd\nef".toList 3)) = nonWS "ab cd\nef".toList ∧
    ("ab cd\nef".toList.length ≤ 3 → split_message "ab cd\nef".toList 3 = ["ab cd\nef".toList]) :=
  split_message_content "ab cd\nef".toList 3 (by decide)

/-! ### Python's stable `sorted(key=..., reverse=True)`

Python's sort is stable; with `reverse=True` elements are ordered by key
descending while elements with equal keys keep their original relative
order.  `sortByDesc` produces exactly that ordering (insertion placing each
element after all previously placed elements of key at least its own), and
the lemmas below establish the characterizing properties: the result is a
permutation, sorted descending, and filtering by any predicate commutes with
sorting (which in particular gives stability: the sublist at any fixed key
equals the original sublist at that key). -/

section StableSort

variable {α : Type} (key : α → Nat)

/-- One insertion step of the stable descending sort: `x` is placed after
every already placed element whose key is at least `key x`. -/
def insertByDesc (x : α) : List α → List α
  | [] => [x]
  | y :: ys => if key x ≤ key y then y :: insertByDesc x ys else x :: y :: ys

/-- Python `sorted(l, key=key, reverse=True)`. -/
def sortByDesc (l : List α) : List α :=
  l.foldl (fun acc x => insertByDesc key x acc) []

/-- Descending sortedness by key. -/
def SortedByDesc (l : List α) : Prop :=
  List.Pairwise (fun a b => key b ≤ key a) l

theorem insertByDesc_eq_take_drop (x : α) (l : List α) :
    insertByDesc key x l =
      l.takeWhile (fun y => key x ≤ key y) ++
        x :: l.dropWhile (fun y => key x ≤ key y) := by
  induction l with
  | nil => rfl
  | cons y ys ih =>
    by_cases h : key x ≤ key y
    · simp [insertByDesc, List.takeWhile_cons, List.dropWhile_cons, h, ih]
    · simp [insertByDesc, List.takeWhile_cons, List.dropWhile_cons, h]

theorem mem_insertByDesc {a x : α} {l : List α} :
    a ∈ insertByDesc key x l ↔ a = x ∨ a ∈ l := by
  induction l with
  | nil => simp [insertByDesc]
  | cons y ys ih =>
    by_cases h : key x ≤ key y
    · simp only [insertByDesc, if_pos h, List.mem_cons, ih]
      tauto
    · simp only [insertByDesc, if_neg h, List.mem_cons]

theorem insertByDesc_perm (x : α) (l : List α) :
    (insertByDesc key x l).Perm (x :: l) := by
  induction l with
  | nil => exact List.Perm.refl _
  | cons y ys ih =>
    by_cases h : key x ≤ key y
    · rw [show insertByDesc key x (y :: ys) = y :: insertByDesc key x ys from by
        simp [insertByDesc, h]]
      exact (ih.cons y).trans (List.Perm.swap x y ys)
    · rw [show insertByDesc key x (y :: ys) = x :: y :: ys from by
        simp [insertByDesc, h]]

theorem insertByDesc_sorted {l : List α} (x : α) (h : SortedByDesc key l) :
    SortedByDesc key (insertByDesc key x l) := by
  induction l with
  | nil => simp [insertByDesc, SortedByDesc]
  | cons y ys ih =>
    rw [SortedByDesc, List.pairwise_cons] at h
    by_cases hxy : key x ≤ key y
    · rw [show insertByDesc key x (y :: ys) = y :: insertByDesc key x ys from by
        simp [insertByDesc, hxy]]
      rw [SortedByDesc, List.pairwise_cons]
      refine ⟨?_, ih h.2⟩
      intro z hz
      rcases (mem_insertByDesc key).mp hz with hzx | hzy
      · exact hzx ▸ hxy
      · exact h.1 z hzy
    · rw [show insertByDesc key x (y :: ys) = x :: y :: ys from by
        simp [insertByDesc, hxy]]
      rw [SortedByDesc, List.pairwise_cons]
      refine ⟨?_, List.pairwise_cons.mpr h⟩
      intro z hz
      rcases List.mem_cons.mp hz with hzy | hzys
      · subst hzy
        omega
      · have := h.1 z hzys
        omega

theorem insertByDesc_of_all_ge {l : List α} {x : α}
    (h : ∀ y ∈ l, key x ≤ key y) : insertByDesc key x l = l ++ [x] := by
  induction l with
  | nil => rfl
  | cons y ys ih =>
    have hy : key x ≤ key y := h y (List.mem_cons_self y ys)
    simp only [insertByDesc, if_pos hy, List.cons_append]
    rw [ih]
    intro z hz
    exact h z (List.mem_cons_of_mem y hz)

theorem sorted_takeWhile_eq_filter {l : List α} (c : Nat) (h : SortedByDesc key l) :
    l.takeWhile (fun y => c ≤ key y) = l.filter (fun y => c ≤ key y) := by
  induction l with
  | nil => rfl
  | cons y ys ih =>
    rw [SortedByDesc, List.pairwise_cons] at h
    by_cases hy : c ≤ key y
    · simp only [List.takeWhile_cons, List.filter_cons, hy]
      simp only [decide_True]
      rw [if_pos trivial, if_pos trivial, ih h.2]
    · simp only [List.takeWhile_cons, List.filter_cons, hy]
      simp only [decide_False]
      rw [if_neg (by simp), if_neg (by simp)]
      symm
      rw [List.filter_eq_nil_iff]
      intro z hz
      have := h.1 z hz
      simp only [decide_eq_true_eq]
      omega

theorem sorted_dropWhile_eq_filter {l : List α} (c : Nat) (h : SortedByDesc key l) :
    l.dropWhile (fun y => c ≤ key y) = l.filter (fun y => key y < c) := by
  induction l with
  | nil => rfl
  | cons y ys ih =>
    rw [SortedByDesc, List.pairwise_cons] at h
    by_cases hy : c ≤ key y
    · have hy2 : ¬ key y < c := by omega
      simp only [List.dropWhile_cons, List.filter_cons, hy, hy2]
      simp only [decide_True, decide_False]
      rw [if_pos trivial, if_neg (by simp)]
      exact ih h.2
    · have hy2 : key y < c := by omega
      simp only [List.dropWhile_cons, List.filter_cons, hy, hy2]
      simp only [decide_True, decide_False]
      rw [if_neg (by simp), if_pos trivial]
      congr 1
      symm
      rw [List.filter_eq_self]
      intro z hz
      have := h.1 z hz
      simp only [decide_eq_true_eq]
      omega

theorem sortedByDesc_filter {l : List α} (p : α → Bool) (h : SortedByDesc key l) :
    SortedByDesc key (l.filter p) :=
  List.Pairwise.filter p h

theorem filter_insertByDesc {l : List α} (p : α → Bool) (x : α)
    (h : SortedByDesc key l) :
    (insertByDesc key x l).filter p =
      if p x then insertByDesc key x (l.filter p) else l.filter p := by
  rw [insertByDesc_eq_take_drop, List.filter_append, List.filter_cons]
  by_cases hpx : p x
  · rw [if_pos hpx, if_pos hpx, insertByDesc_eq_take_drop]
    rw [sorted_takeWhile_eq_filter key (key x) h,
      sorted_dropWhile_eq_filter key (key x) h,
      sorted_takeWhile_eq_filter key (key x) (sortedByDesc_filter key p h),
      sorted_dropWhile_eq_filter key (key x) (sortedByDesc_filter key p h)]
    rw [List.filter_filter, List.filter_filter, List.filter_filter, List.filter_filter]
    refine congrArg₂ _ (List.filter_congr ?_) (congrArg _ (List.filter_congr ?_))
    · intro z hz
      simp [Bool.and_comm]
    · intro z hz
      simp [Bool.and_comm]
  · rw [if_neg hpx, if_neg hpx]
    rw [sorted_takeWhile_eq_filter key (key x) h,
      sorted_dropWhile_eq_filter key (key x) h,
      List.filter_filter, List.filter_filter]
    rw [show (List.filter (fun a => p a && decide (key a < key x)) l)
        = List.filter (fun a => decide (key a < key x) && p a) l from
      List.filter_congr (fun z _ => Bool.and_comm _ _)]
    rw [show (List.filter (fun a => p a && decide (key x ≤ key a)) l)
        = List.filter (fun a => decide (key x ≤ key a) && p a) l from
      List.filter_congr (fun z _ => Bool.and_comm _ _)]
    rw [← List.filter_filter, ← List.filter_filter]
    rw [← sorted_takeWhile_eq_filter key (key x) (sortedByDesc_filter key p h),
      ← sorted_dropWhile_eq_filter key (key x) (sortedByDesc_filter key p h),
      List.takeWhile_append_dropWhile]

theorem sortFold_sorted :
    ∀ (l acc : List α), SortedByDesc key acc →
      SortedByDesc key (l.foldl (fun acc x => insertByDesc key x acc) acc) := by
  intro l
  induction l with
  | nil => intro acc h; exact h
  | cons x rest ih =>
    intro acc h
    exact ih (insertByDesc key x acc) (insertByDesc_sorted key x h)

theorem sortByDesc_sorted (l : List α) : SortedByDesc key (sortByDesc key l) :=
  sortFold_sorted key l [] List.Pairwise.nil

theorem sortFold_perm :
    ∀ (l acc : List α),
      (l.foldl (fun acc x => insertByDesc key x acc) acc).Perm (acc ++ l) := by
  intro l
  induction l with
  | nil => intro acc; simp
  | cons x rest ih =>
    intro acc
    rw [List.foldl_cons]
    have h1 := ih (insertByDesc key x acc)
    have h2 : (insertByDesc key x acc ++ rest).Perm ((x :: acc) ++ rest) :=
      (insertByDesc_perm key x acc).append_right rest
    have h3 : ((x :: acc) ++ rest).Perm (acc ++ x :: rest) := by
      simpa using List.perm_middle.symm
    exact (h1.trans h2).trans h3

theorem sortByDesc_perm (l : List α) : (sortByDesc key l).Perm l := by
  simpa using sortFold_perm key l []

theorem mem_sortByDesc {a : α} {l : List α} : a ∈ sortByDesc key l ↔ a ∈ l :=
  (sortByDesc_perm key l).mem_iff

theorem sortFold_filter (p : α → Bool) :
    ∀ (l acc : List α), SortedByDesc key acc →
      (l.foldl (fun acc x => insertByDesc key x acc) acc).filter p
        = (l.filter p).foldl (fun acc x => insertByDesc key x acc) (acc.filter p) := by
  intro l
  induction l with
  | nil => intro acc _; rfl
  | cons x rest ih =>
    intro acc h
    rw [List.foldl_cons, ih (insertByDesc key x acc) (insertByDesc_sorted key x h),
      filter_insertByDesc key p x h, List.filter_cons]
    by_cases hpx : p x
    · rw [if_pos hpx, if_pos hpx, List.foldl_cons]
    · rw [if_neg hpx, if_neg hpx]

/-- Filtering commutes with the stable descending sort. -/
theorem sortByDesc_filter (p : α → Bool) (l : List α) :
    (sortByDesc key l).filter p = sortByDesc key (l.filter p) :=
  sortFold_filter key p l [] List.Pairwise.nil

theorem sortFold_of_sorted :
    ∀ (l acc : List α), SortedByDesc key (acc ++ l) →
      l.foldl (fun acc x => insertByDesc key x acc) acc = acc ++ l := by
  intro l
  induction l with
  | nil => intro acc _; simp
  | cons x rest ih =>
    intro acc h
    have hge : ∀ y ∈ acc, key x ≤ key y := by
      rw [SortedByDesc, List.pairwise_append] at h
      intro y hy
      exact h.2.2 y hy x (List.mem_cons_self x rest)
    rw [List.foldl_cons, insertByDesc_of_all_ge key hge,
      ih (acc ++ [x]) (by simpa using h)]
    simp

/-- A list that is already sorted descending is a fixed point of the sort. -/
theorem sortByDesc_of_sorted {l : List α} (h : SortedByDesc key l) :
    sortByDesc key l = l := by
  simpa using sortFold_of_sorted key l [] (by simpa using h)

/-- Stability of the sort: the elements at any fixed key value appear in the
result in exactly their original relative order. -/
theorem sortByDesc_stable (c : Nat) (l : List α) :
    (sortByDesc key l).filter (fun x => key x = c)
      = l.filter (fun x => key x = c) := by
  rw [sortByDesc_filter]
  apply sortByDesc_of_sorted
  rw [SortedByDesc]
  apply List.pairwise_of_forall_mem_list
  intro a ha b hb
  have hac : key a = c := by simpa using List.of_mem_filter ha
  have hbc : key b = c := by simpa using List.of_mem_filter hb
  omega

end StableSort

/-! ### Data model and reaction aggregator (src/core_logic.py, lines 44-86) -/

structure Attachment where
  url : String
  contentType : Option String
deriving DecidableEq

/-- A reaction entry of a post: the emoji symbol (Python `str(reaction.emoji)`),
the reactor ids successfully yielded by `reaction.users()` in yield order, and
whether iterating the reactors raised an exception after yielding them (any
remaining reactors of this emoji were then never seen). -/
structure Reaction where
  emoji : String
  users : List Nat
  failed : Bool
deriving DecidableEq

structure Post where
  id : Nat
  guild : Option Nat
  channel : Nat
  author : Nat
  authorName : String
  createdAt : String
  attachments : List Attachment
  reactions : List Reaction
deriving DecidableEq

def isImageAttachment (a : Attachment) : Bool :=
  match a.contentType with
  | some t => t.startsWith "image/"
  | none => false

/-- filter_image_posts (core_logic.py, lines 44-53): keep the messages having
at least one image-typed attachment (the outer `if message.attachments` test
of the source is subsumed by `any`). -/
def filter_image_posts (messages : List Post) : List Post :=
  messages.filter (fun m => m.attachments.any isImageAttachment)

/-- The aggregate record produced by get_post_data. -/
structure PostAggregate where
  post_link : String
  image_links : String
  posted_at : String
  author : String
  reactions : Nat
  individual_reactions : List (String × Nat)
deriving DecidableEq

/-- The dict update `counts[emoji] = counts.get(emoji, 0) + 1` on an
insertion-ordered dict represented as an association list. -/
def bumpEmoji : List (String × Nat) → String → List (String × Nat)
  | [], e => [(e, 1)]
  | (e', n) :: rest, e =>
    if e' = e then (e', n + 1) :: rest else (e', n) :: bumpEmoji rest e

/-- The users-loop of get_post_data for one reaction: each yielded user that
is not the author increments the running total and this emoji's count. -/
def processUsers (authorId : Nat) (e : String) :
    List Nat → Nat × List (String × Nat) → Nat × List (String × Nat)
  | [], st => st
  | u :: us, st =>
    if u ≠ authorId then
      processUsers authorId e us (st.1 + 1, bumpEmoji st.2 e)
    else
      processUsers authorId e us st

/-- The reactions-loop of get_post_data.  The try/except around the users
iteration merely continues with the next reaction on failure, so users
yielded before a failure stay counted and the `failed` flag of a reaction is
never consulted. -/
def processReactions (authorId : Nat) :
    List Reaction → Nat × List (String × Nat) → Nat × List (String × Nat)
  | [], st => st
  | r :: rs, st => processReactions authorId rs (processUsers authorId r.emoji r.users st)

def postLink (m : Post) : String :=
  "https://discord.com/channels/" ++
    (match m.guild with
     | some g => toString g
     | none => "unknown_guild") ++
    "/" ++ toString m.channel ++ "/" ++ toString m.id

def imageLinks (m : Post) : String :=
  String.intercalate ", " ((m.attachments.filter isImageAttachment).map Attachment.url)

/-- The running (total, per-emoji counts) pair of get_post_data, counts in
first-encounter (dict insertion) order. -/
def reactionTally (m : Post) : Nat × List (String × Nat) :=
  processReactions m.author m.reactions (0, [])

/-- get_post_data (core_logic.py, lines 55-86). -/
def get_post_data (m : Post) : PostAggregate :=
  { post_link := postLink m
    image_links := imageLinks m
    posted_at := m.createdAt
    author := m.authorName
    reactions := (reactionTally m).1
    individual_reactions := sortByDesc Prod.snd (reactionTally m).2 }

/-! Reference notions taken from the claims' wording, for comparison with the
aggregator. -/

/-- Reference (spec wording): the sequence of counted (emoji, reactor) pairs
of a post — one occurrence of the reaction's emoji per successfully resolved
reactor that is not the author — in reaction order. -/
def countedSeq (m : Post) : List String :=
  m.reactions.flatMap
    (fun r => (r.users.filter (fun u => u ≠ m.author)).map (fun _ => r.emoji))

/-- Reference (spec wording): the number of (emoji, reactor) pairs whose
reactor is not the post's author. -/
def externalPairCount (m : Post) : Nat :=
  (m.reactions.map (fun r => (r.users.filter (fun u => u ≠ m.author)).length)).sum

/-- First occurrences of a list, in order, skipping anything in `seen`. -/
def dedupFirstAux {β : Type} [DecidableEq β] (seen : List β) : List β → List β
  | [] => []
  | e :: rest =>
    if e ∈ seen then dedupFirstAux seen rest
    else e :: dedupFirstAux (e :: seen) rest

/-- The distinct members of a list in first-occurrence order. -/
def dedupFirst {β : Type} [DecidableEq β] (l : List β) : List β :=
  dedupFirstAux [] l

/-- The total weight an emoji carries in a breakdown list: the sum of the
counts recorded for it (robust against entry order). -/
def emojiWeight (e : String) (l : List (String × Nat)) : Nat :=
  ((l.filter (fun kv => kv.1 = e)).map Prod.snd).sum

/-- Folding the dict update over a sequence of counted emoji occurrences. -/
def tallyFold (c : List (String × Nat)) (seq : List String) : List (String × Nat) :=
  seq.foldl bumpEmoji c

example : reactionTally
    { id := 1, guild := some 9, channel := 2, author := 7, authorName := "a",
      createdAt := "t", attachments := [],
      reactions := [⟨"🔥", [7, 8], false⟩, ⟨"⭐", [7], false⟩, ⟨"😀", [9, 8], true⟩] }
    = (3, [("🔥", 1), ("😀", 2)]) := by decide

/-! ### Aggregator lemmas -/

theorem processUsers_fst (a : Nat) (e : String) :
    ∀ (us : List Nat) (st : Nat × List (String × Nat)),
      (processUsers a e us st).1 = st.1 + (us.filter (fun u => u ≠ a)).length := by
  intro us
  induction us with
  | nil => intro st; simp [processUsers]
  | cons u rest ih =>
    intro st
    by_cases hu : u ≠ a
    · rw [show processUsers a e (u :: rest) st
          = processUsers a e rest (st.1 + 1, bumpEmoji st.2 e) from by
        simp [processUsers, hu]]
      rw [ih]
      simp [List.filter_cons, hu]
      omega
    · rw [show processUsers a e (u :: rest) st = processUsers a e rest st from by
        simp [processUsers, hu]]
      rw [ih]
      simp [List.filter_cons, hu]

theorem processUsers_snd (a : Nat) (e : String) :
    ∀ (us : List Nat) (st : Nat × List (String × Nat)),
      (processUsers a e us st).2
        = tallyFold st.2 ((us.filter (fun u => u ≠ a)).map (fun _ => e)) := by
  intro us
  induction us with
  | nil => intro st; simp [processUsers, tallyFold]
  | cons u rest ih =>
    intro st
    by_cases hu : u ≠ a
    · rw [show processUsers a e (u :: rest) st
          = processUsers a e rest (st.1 + 1, bumpEmoji st.2 e) from by
        simp [processUsers, hu]]
      rw [ih]
      simp [List.filter_cons, hu, tallyFold]
    · rw [show processUsers a e (u :: rest) st = processUsers a e rest st from by
        simp [processUsers, hu]]
      rw [ih]
      simp [List.filter_cons, hu]

theorem processReactions_fst (a : Nat) :
    ∀ (rs : List Reaction) (st : Nat × List (String × Nat)),
      (processReactions a rs st).1
        = st.1 + (rs.map (fun r => (r.users.filter (fun u => u ≠ a)).length)).sum := by
  intro rs
  induction rs with
  | nil => intro st; simp [processReactions]
  | cons r rest ih =>
    intro st
    rw [show processReactions a (r :: rest) st
        = processReactions a rest (processUsers a r.emoji r.users st) from rfl]
    rw [ih, processUsers_fst]
    simp
    omega

theorem processReactions_snd (a : Nat) :
    ∀ (rs : List Reaction) (st : Nat × List (String × Nat)),
      (processReactions a rs st).2
        = tallyFold st.2
            (rs.flatMap (fun r => (r.users.filter (fun u => u ≠ a)).map (fun _ => r.emoji))) := by
  intro rs
  induction rs with
  | nil => intro st; simp [processReactions, tallyFold]
  | cons r rest ih =>
    intro st
    rw [show processReactions a (r :: rest) st
        = processReactions a rest (processUsers a r.emoji r.users st) from rfl]
    rw [ih, processUsers_snd]
    simp [tallyFold, List.foldl_append]

theorem reactionTally_fst (m : Post) : (reactionTally m).1 = externalPairCount m := by
  rw [reactionTally, processReactions_fst]
  simp [externalPairCount]

theorem reactionTally_snd (m : Post) :
    (reactionTally m).2 = tallyFold [] (countedSeq m) := by
  rw [reactionTally, processReactions_snd]
  rfl

theorem countedSeq_length (m : Post) :
    (countedSeq m).length = externalPairCount m := by
  rw [countedSeq, externalPairCount, List.length_flatMap]
  congr 1
  simp [Function.comp, List.length_map]

theorem dedupFirstAux_congr {β : Type} [DecidableEq β] :
    ∀ (l : List β) {s1 s2 : List β}, (∀ a, a ∈ s1 ↔ a ∈ s2) →
      dedupFirstAux s1 l = dedupFirstAux s2 l := by
  intro l
  induction l with
  | nil => intro s1 s2 _; rfl
  | cons e rest ih =>
    intro s1 s2 h
    by_cases he : e ∈ s1
    · rw [show dedupFirstAux s1 (e :: rest) = dedupFirstAux s1 rest from by
        simp [dedupFirstAux, he]]
      rw [show dedupFirstAux s2 (e :: rest) = dedupFirstAux s2 rest from by
        simp [dedupFirstAux, (h e).mp he]]
      exact ih h
    · have he2 : e ∉ s2 := fun hx => he ((h e).mpr hx)
      rw [show dedupFirstAux s1 (e :: rest) = e :: dedupFirstAux (e :: s1) rest from by
        simp [dedupFirstAux, he]]
      rw [show dedupFirstAux s2 (e :: rest) = e :: dedupFirstAux (e :: s2) rest from by
        simp [dedupFirstAux, he2]]
      exact congrArg (fun t => e :: t) (@ih (e :: s1) (e :: s2) (fun a => by
        rw [List.mem_cons, List.mem_cons, h a]))

theorem bumpEmoji_keys (c : List (String × Nat)) (e : String) :
    (bumpEmoji c e).map Prod.fst =
      if e ∈ c.map Prod.fst then c.map Prod.fst else c.map Prod.fst ++ [e] := by
  induction c with
  | nil => simp [bumpEmoji]
  | cons kv rest ih =>
    rcases kv with ⟨e', n⟩
    by_cases he : e' = e
    · subst he
      simp [bumpEmoji]
    · rw [show bumpEmoji ((e', n) :: rest) e = (e', n) :: bumpEmoji rest e from by
        simp [bumpEmoji, he]]
      by_cases hr : e ∈ rest.map Prod.fst
      · have hmem : e ∈ ((e', n) :: rest).map Prod.fst := by
          simp [hr]
        rw [if_pos hmem]
        simp only [List.map_cons, ih, if_pos hr]
      · have hmem : e ∉ ((e', n) :: rest).map Prod.fst := by
          simp [hr, Ne.symm]
          intro hx
          exact absurd hx.symm he
        rw [if_neg hmem]
        simp only [List.map_cons, ih, if_neg hr, List.cons_append]

theorem emojiWeight_nil (e : String) : emojiWeight e [] = 0 := rfl

theorem emojiWeight_bump (e : String) :
    ∀ (c : List (String × Nat)) (x : String),
      emojiWeight e (bumpEmoji c x)
        = emojiWeight e c + (if x = e then 1 else 0) := by
  intro c
  induction c with
  | nil =>
    intro x
    by_cases hx : x = e
    · simp [bumpEmoji, emojiWeight, List.filter_cons, hx]
    · simp [bumpEmoji, emojiWeight, List.filter_cons, hx]
  | cons kv rest ih =>
    intro x
    rcases kv with ⟨e', n⟩
    by_cases hx : e' = x
    · subst hx
      rw [show bumpEmoji ((e', n) :: rest) e' = (e', n + 1) :: rest from by
        simp [bumpEmoji]]
      by_cases he : e' = e
      · simp [emojiWeight, List.filter_cons, he]
        omega
      · simp [emojiWeight, List.filter_cons, he]
    · rw [show bumpEmoji ((e', n) :: rest) x = (e', n) :: bumpEmoji rest x from by
        simp [bumpEmoji, hx]]
      by_cases he : e' = e
      · simp only [emojiWeight, List.filter_cons, he, decide_True, if_pos trivial]
        simp only [emojiWeight] at ih
        simp [ih x]
        omega
      · simp only [emojiWeight, List.filter_cons]
        have : (decide (e' = e)) = false := by simp [he]
        simp only [this]
        simp only [if_neg (by simp : ¬ false = true)]
        simp only [emojiWeight] at ih
        simp [ih x]

theorem tallyFold_keys :
    ∀ (seq : List String) (c : List (String × Nat)),
      (tallyFold c seq).map Prod.fst
        = c.map Prod.fst ++ dedupFirstAux (c.map Prod.fst) seq := by
  intro seq
  induction seq with
  | nil => intro c; simp [tallyFold, dedupFirstAux]
  | cons e rest ih =>
    intro c
    rw [show tallyFold c (e :: rest) = tallyFold (bumpEmoji c e) rest from rfl]
    rw [ih (bumpEmoji c e), bumpEmoji_keys]
    by_cases he : e ∈ c.map Prod.fst
    · rw [if_pos he]
      rw [show dedupFirstAux (c.map Prod.fst) (e :: rest)
          = dedupFirstAux (c.map Prod.fst) rest from by
        simp [dedupFirstAux, he]]
    · rw [if_neg he]
      rw [show dedupFirstAux (c.map Prod.fst) (e :: rest)
          = e :: dedupFirstAux (e :: c.map Prod.fst) rest from by
        simp [dedupFirstAux, he]]
      rw [dedupFirstAux_congr rest
        (show ∀ a, a ∈ c.map Prod.fst ++ [e] ↔ a ∈ e :: c.map Prod.fst from fun a => by
          simp [List.mem_append, List.mem_cons, or_comm])]
      simp

theorem tallyFold_weight (e : String) :
    ∀ (seq : List String) (c : List (String × Nat)),
      emojiWeight e (tallyFold c seq) = emojiWeight e c + seq.count e := by
  intro seq
  induction seq with
  | nil => intro c; simp [tallyFold]
  | cons x rest ih =>
    intro c
    rw [show tallyFold c (x :: rest) = tallyFold (bumpEmoji c x) rest from rfl]
    rw [ih (bumpEmoji c x), emojiWeight_bump]
    rw [List.count_cons]
    by_cases hx : x = e
    · simp only [hx, if_pos rfl, beq_self_eq_true, if_pos trivial]
      omega
    · have hb : (x == e) = false := by
        simp [hx]
      simp [hx, hb]

theorem bumpEmoji_sum (c : List (String × Nat)) (e : String) :
    ((bumpEmoji c e).map Prod.snd).sum = (c.map Prod.snd).sum + 1 := by
  induction c with
  | nil => simp [bumpEmoji]
  | cons kv rest ih =>
    rcases kv with ⟨e', n⟩
    by_cases he : e' = e
    · subst he
      simp [bumpEmoji]
      omega
    · rw [show bumpEmoji ((e', n) :: rest) e = (e', n) :: bumpEmoji rest e from by
        simp [bumpEmoji, he]]
      simp [ih]
      omega

theorem tallyFold_sum :
    ∀ (seq : List String) (c : List (String × Nat)),
      ((tallyFold c seq).map Prod.snd).sum = (c.map Prod.snd).sum + seq.length := by
  intro seq
  induction seq with
  | nil => intro c; simp [tallyFold]
  | cons x rest ih =>
    intro c
    rw [show tallyFold c (x :: rest) = tallyFold (bumpEmoji c x) rest from rfl]
    rw [ih (bumpEmoji c x), bumpEmoji_sum]
    simp
    omega

/-! ### Claims about the aggregator -/

/-- Claim C2: for every post, the aggregator's total (the `reactions` field of
get_post_data) equals the number of (emoji, reactor) pairs over the post's
reactions whose reactor is not the post's author; reactions by the author
never contribute. -/
theorem get_post_data_total_external (m : Post) :
    (get_post_data m).reactions = externalPairCount m := by
  rw [show (get_post_data m).reactions = (reactionTally m).1 from rfl,
    reactionTally_fst]

/-- Scenario D of the specification as a concrete instance: the author (id 7)
reacts to their own post with two distinct emojis and a different user (id 8)
reacts once; the total is 1. -/
theorem get_post_data_total_external_scenario :
    (get_post_data
      { id := 1, guild := some 9, channel := 2, author := 7, authorName := "a",
        createdAt := "t", attachments := [],
        reactions := [⟨"🔥", [7], false⟩, ⟨"⭐", [7, 8], false⟩] }).reactions = 1 := by
  decide

/-- A post with the resolution-failure flags of its reactions rewritten
by `f`; the emoji symbols and the successfully resolved reactor lists are
untouched. -/
def withFlags (m : Post) (f : Reaction → Bool) : Post :=
  { m with reactions := m.reactions.map (fun r => { r with failed := f r }) }

theorem processReactions_withFlags (a : Nat) (f : Reaction → Bool) :
    ∀ (rs : List Reaction) (st : Nat × List (String × Nat)),
      processReactions a (rs.map (fun r => { r with failed := f r })) st
        = processReactions a rs st := by
  intro rs
  induction rs with
  | nil => intro st; rfl
  | cons r rest ih =>
    intro st
    rw [List.map_cons]
    rw [show processReactions a
        ({ r with failed := f r } :: rest.map (fun r => { r with failed := f r })) st
        = processReactions a (rest.map (fun r => { r with failed := f r }))
            (processUsers a r.emoji r.users st) from rfl]
    rw [ih]
    rfl

/-- Claim C7: failed reactor resolutions are absorbed.  The aggregate a post
yields (i) does not depend on which reactions are marked as failed (the
except-branch of the source continues with the next reaction, and the
embedding is a total function — no exception escapes), and the resulting
aggregate counts exactly the successfully resolved non-author pairs: (ii) the
total is the number of resolved non-author pairs, (iii) each emoji's weight in
the breakdown is the number of resolved non-author pairs carrying that emoji,
and (iv) the breakdown is well-formed: its counts sum to the total. -/
theorem get_post_data_partial_failure (m : Post) :
    (∀ f : Reaction → Bool, get_post_data (withFlags m f) = get_post_data m) ∧
    (get_post_data m).reactions = externalPairCount m ∧
    (∀ e : String,
      emojiWeight e (get_post_data m).individual_reactions = (countedSeq m).count e) ∧
    ((get_post_data m).individual_reactions.map Prod.snd).sum
      = (get_post_data m).reactions := by
  refine ⟨?_, ?_, ?_, ?_⟩
  · intro f
    rw [get_post_data, get_post_data]
    have hre : reactionTally (withFlags m f) = reactionTally m := by
      rw [reactionTally, reactionTally]
      rw [show (withFlags m f).reactions = m.reactions.map (fun r => { r with failed := f r })
        from rfl]
      rw [show (withFlags m f).author = m.author from rfl]
      rw [processReactions_withFlags]
    rw [hre]
    rfl
  · rw [show (get_post_data m).reactions = (reactionTally m).1 from rfl,
      reactionTally_fst]
  · intro e
    rw [show (get_post_data m).individual_reactions
        = sortByDesc Prod.snd (reactionTally m).2 from rfl]
    have hperm : (sortByDesc Prod.snd (reactionTally m).2).Perm (reactionTally m).2 :=
      sortByDesc_perm Prod.snd _
    have hw : emojiWeight e (sortByDesc Prod.snd (reactionTally m).2)
        = emojiWeight e (reactionTally m).2 := by
      rw [emojiWeight, emojiWeight]
      exact List.Perm.sum_eq ((hperm.filter _).map _)
    rw [hw, reactionTally_snd, tallyFold_weight]
    simp [emojiWeight]
  · rw [show (get_post_data m).individual_reactions
        = sortByDesc Prod.snd (reactionTally m).2 from rfl,
      show (get_post_data m).reactions = (reactionTally m).1 from rfl]
    have hperm : (sortByDesc Prod.snd (reactionTally m).2).Perm (reactionTally m).2 :=
      sortByDesc_perm Prod.snd _
    rw [List.Perm.sum_eq (hperm.map _)]
    rw [reactionTally_snd, tallyFold_sum, reactionTally_fst, countedSeq_length]
    simp

/-- Claim C8: the per-emoji breakdown of a post is ordered by count
descending, and entries with equal counts appear in first-encountered
(dict insertion) order over the post's reaction sequence: filtering the
breakdown at any fixed count gives exactly the corresponding slice of the
insertion-ordered tally, whose key order is the first-occurrence order of the
counted emoji sequence. -/
theorem get_post_data_breakdown_order (m : Post) :
    List.Pairwise (fun a b => b.2 ≤ a.2) (get_post_data m).individual_reactions ∧
    (∀ c : Nat,
      (get_post_data m).individual_reactions.filter (fun kv => kv.2 = c)
        = (reactionTally m).2.filter (fun kv => kv.2 = c)) ∧
    (reactionTally m).2.map Prod.fst = dedupFirst (countedSeq m) := by
  refine ⟨?_, ?_, ?_⟩
  · exact sortByDesc_sorted Prod.snd (reactionTally m).2
  · intro c
    exact sortByDesc_stable Prod.snd c (reactionTally m).2
  · rw [reactionTally_snd, tallyFold_keys, dedupFirst]
    rfl

/-! ### Grouping and dense ranking
(core_logic.py generate_markdown_output lines 128-187,
commands.py generate_enhanced_ranking lines 260-309, and the legacy
main.py generate_markdown_output lines 175-229) -/

/-- The insertion-ordered grouping dict update
`grouped_posts[reactions].append(post)` (creating the entry first when the
key is new). -/
def addToGroup : List (Nat × List PostAggregate) → Nat → PostAggregate →
    List (Nat × List PostAggregate)
  | [], n, p => [(n, [p])]
  | (m, ps) :: rest, n, p =>
    if m = n then (m, ps ++ [p]) :: rest else (m, ps) :: addToGroup rest n p

/-- `grouped_posts[reactions]`: the members recorded for a count (the ranking
loop only looks up keys of the dict, so the default is never reached). -/
def lookupGroup (gs : List (Nat × List PostAggregate)) (c : Nat) : List PostAggregate :=
  (((gs.find? (fun g => g.1 = c))).map Prod.snd).getD []

/-- The grouping of core_logic.generate_markdown_output (lines 130-137) and
commands.generate_enhanced_ranking (lines 262-269): iterate the stable-sorted
data and insert every post with a positive count. -/
def groupedPosts (data : List PostAggregate) : List (Nat × List PostAggregate) :=
  (sortByDesc PostAggregate.reactions data).foldl
    (fun gs p => if 0 < p.reactions then addToGroup gs p.reactions p else gs) []

/-- The legacy grouping of main.generate_markdown_output (lines 181-187):
identical, but without the positive-count guard. -/
def groupedPostsLegacy (data : List PostAggregate) : List (Nat × List PostAggregate) :=
  (sortByDesc PostAggregate.reactions data).foldl
    (fun gs p => addToGroup gs p.reactions p) []

/-- The ranking loop over `sorted_groups`:
`for reactions in sorted_groups: if current_rank > num_top_posts: break; …`,
collecting (rank, count, members) entries. -/
def rankLoop (gs : List (Nat × List PostAggregate)) (topN : Nat) :
    Nat → List Nat → List (Nat × Nat × List PostAggregate)
  | _, [] => []
  | rank, c :: cs =>
    if topN < rank then []
    else (rank, c, lookupGroup gs c) :: rankLoop gs topN (rank + 1) cs

/-- The rank-group structure of the leaderboards rendered by
core_logic.generate_markdown_output and commands.generate_enhanced_ranking:
group the positive-count posts, sort the counts descending and emit dense
ranks up to the limit. -/
def rankEntries (data : List PostAggregate) (topN : Nat) :
    List (Nat × Nat × List PostAggregate) :=
  rankLoop (groupedPosts data) topN 1
    (sortByDesc id ((groupedPosts data).map Prod.fst))

/-- The rank-group structure of the legacy main.py renderer (no zero-count
filter). -/
def rankEntriesLegacy (data : List PostAggregate) (topN : Nat) :
    List (Nat × Nat × List PostAggregate) :=
  rankLoop (groupedPostsLegacy data) topN 1
    (sortByDesc id ((groupedPostsLegacy data).map Prod.fst))

/-- Reference, modelled from the spec's ranking algorithm (§4.4, step 3):
partition a list into consecutive equal-count runs, preserving order. -/
def chunkRuns : List PostAggregate → List (Nat × List PostAggregate)
  | [] => []
  | p :: rest =>
    match chunkRuns rest with
    | [] => [(p.reactions, [p])]
    | (c, g) :: gs =>
      if p.reactions = c then (c, p :: g) :: gs
      else (p.reactions, [p]) :: (c, g) :: gs

/-- Reference (§4.4, step 4): dense 1-based ranks attached to the groups in
order. -/
def withRanks : Nat → List (Nat × List PostAggregate) →
    List (Nat × Nat × List PostAggregate)
  | _, [] => []
  | r, (c, g) :: gs => (r, c, g) :: withRanks (r + 1) gs

/-- Reference algorithm, modelled from the spec (§4.4): discard zero-count
aggregates, stable-sort the rest by count descending, partition into
consecutive equal-count groups preserving sort order, attach dense ranks
1, 2, 3, … and keep the groups of rank at most top_n — whole groups, never
split. -/
def refLeaderboard (data : List PostAggregate) (topN : Nat) :
    List (Nat × Nat × List PostAggregate) :=
  (withRanks 1 (chunkRuns (sortByDesc PostAggregate.reactions
    (data.filter (fun p => 0 < p.reactions))))).take topN

/-! ### Ranking lemmas -/

/-- The positive-count guard inside the grouping loop is a filter. -/
theorem foldl_guard_filter :
    ∀ (l : List PostAggregate) (gs : List (Nat × List PostAggregate)),
      l.foldl (fun gs p => if 0 < p.reactions then addToGroup gs p.reactions p else gs) gs
        = (l.filter (fun p => 0 < p.reactions)).foldl
            (fun gs p => addToGroup gs p.reactions p) gs := by
  intro l
  induction l with
  | nil => intro gs; rfl
  | cons p rest ih =>
    intro gs
    by_cases hp : 0 < p.reactions
    · rw [List.foldl_cons, if_pos hp, List.filter_cons, if_pos (by simpa using hp),
        List.foldl_cons]
      exact ih _
    · rw [List.foldl_cons, if_neg hp, List.filter_cons, if_neg (by simpa using hp)]
      exact ih _

/-- The grouping of the filtered renderers works on the sorted positive-count
posts. -/
theorem groupedPosts_eq_filter (data : List PostAggregate) :
    groupedPosts data
      = (sortByDesc PostAggregate.reactions
          (data.filter (fun p => 0 < p.reactions))).foldl
            (fun gs p => addToGroup gs p.reactions p) [] := by
  rw [groupedPosts, foldl_guard_filter, sortByDesc_filter]

theorem addToGroup_keys (gs : List (Nat × List PostAggregate)) (n : Nat)
    (p : PostAggregate) :
    (addToGroup gs n p).map Prod.fst =
      if n ∈ gs.map Prod.fst then gs.map Prod.fst else gs.map Prod.fst ++ [n] := by
  induction gs with
  | nil => simp [addToGroup]
  | cons kv rest ih =>
    rcases kv with ⟨m, ps⟩
    by_cases hm : m = n
    · subst hm
      simp [addToGroup]
    · rw [show addToGroup ((m, ps) :: rest) n p = (m, ps) :: addToGroup rest n p from by
        simp [addToGroup, hm]]
      by_cases hr : n ∈ rest.map Prod.fst
      · have hmem : n ∈ ((m, ps) :: rest).map Prod.fst := by simp [hr]
        rw [if_pos hmem]
        simp only [List.map_cons, ih, if_pos hr]
      · have hmem : n ∉ ((m, ps) :: rest).map Prod.fst := by
          simp only [List.map_cons, List.mem_cons]
          push_neg
          exact ⟨fun hx => hm hx.symm, hr⟩
        rw [if_neg hmem]
        simp only [List.map_cons, ih, if_neg hr, List.cons_append]

theorem lookupGroup_cons_pos {m c : Nat} (hc : m = c) (ps : List PostAggregate)
    (t : List (Nat × List PostAggregate)) :
    lookupGroup ((m, ps) :: t) c = ps := by
  subst hc
  simp [lookupGroup, List.find?]

theorem lookupGroup_cons_neg {m c : Nat} (hc : ¬ m = c) (ps : List PostAggregate)
    (t : List (Nat × List PostAggregate)) :
    lookupGroup ((m, ps) :: t) c = lookupGroup t c := by
  simp [lookupGroup, List.find?, hc]

theorem lookupGroup_addToGroup (gs : List (Nat × List PostAggregate)) (n c : Nat)
    (p : PostAggregate) :
    lookupGroup (addToGroup gs n p) c =
      if n = c then lookupGroup gs c ++ [p] else lookupGroup gs c := by
  induction gs with
  | nil =>
    by_cases hn : n = c
    · rw [if_pos hn]
      rw [show addToGroup [] n p = [(n, [p])] from rfl, lookupGroup_cons_pos hn]
      rfl
    · rw [if_neg hn]
      rw [show addToGroup [] n p = [(n, [p])] from rfl, lookupGroup_cons_neg hn]
  | cons kv rest ih =>
    rcases kv with ⟨m, ps⟩
    by_cases hm : m = n
    · rw [show addToGroup ((m, ps) :: rest) n p = (m, ps ++ [p]) :: rest from by
        simp [addToGroup, hm]]
      by_cases hc : n = c
      · rw [if_pos hc, lookupGroup_cons_pos (hm.trans hc),
          lookupGroup_cons_pos (hm.trans hc)]
      · rw [if_neg hc, lookupGroup_cons_neg (fun h2 => hc (hm.symm.trans h2)),
          lookupGroup_cons_neg (fun h2 => hc (hm.symm.trans h2))]
    · rw [show addToGroup ((m, ps) :: rest) n p = (m, ps) :: addToGroup rest n p from by
        simp [addToGroup, hm]]
      by_cases hc : m = c
      · have hnc : ¬ n = c := fun h2 => hm (hc.trans h2.symm)
        rw [if_neg hnc, lookupGroup_cons_pos hc, lookupGroup_cons_pos hc]
      · rw [lookupGroup_cons_neg hc, lookupGroup_cons_neg hc, ih]

theorem groupFold_keys :
    ∀ (l : List PostAggregate) (gs : List (Nat × List PostAggregate)),
      (l.foldl (fun gs p => addToGroup gs p.reactions p) gs).map Prod.fst
        = gs.map Prod.fst
          ++ dedupFirstAux (gs.map Prod.fst) (l.map PostAggregate.reactions) := by
  intro l
  induction l with
  | nil => intro gs; simp [dedupFirstAux]
  | cons p rest ih =>
    intro gs
    rw [List.foldl_cons, ih (addToGroup gs p.reactions p), addToGroup_keys]
    by_cases he : p.reactions ∈ gs.map Prod.fst
    · rw [if_pos he]
      rw [show dedupFirstAux (gs.map Prod.fst) ((p :: rest).map PostAggregate.reactions)
          = dedupFirstAux (gs.map Prod.fst) (rest.map PostAggregate.reactions) from by
        simp [dedupFirstAux, he]]
    · rw [if_neg he]
      rw [show dedupFirstAux (gs.map Prod.fst) ((p :: rest).map PostAggregate.reactions)
          = p.reactions :: dedupFirstAux (p.reactions :: gs.map Prod.fst)
              (rest.map PostAggregate.reactions) from by
        simp [dedupFirstAux, he]]
      rw [dedupFirstAux_congr (rest.map PostAggregate.reactions)
        (show ∀ a, a ∈ gs.map Prod.fst ++ [p.reactions]
            ↔ a ∈ p.reactions :: gs.map Prod.fst from fun a => by
          simp [List.mem_append, List.mem_cons, or_comm])]
      simp

theorem groupFold_lookup :
    ∀ (l : List PostAggregate) (gs : List (Nat × List PostAggregate)) (c : Nat),
      lookupGroup (l.foldl (fun gs p => addToGroup gs p.reactions p) gs) c
        = lookupGroup gs c ++ l.filter (fun p => p.reactions = c) := by
  intro l
  induction l with
  | nil => intro gs c; simp
  | cons p rest ih =>
    intro gs c
    rw [List.foldl_cons, ih (addToGroup gs p.reactions p) c, lookupGroup_addToGroup]
    by_cases hc : p.reactions = c
    · rw [if_pos hc, List.filter_cons, if_pos (by simpa using hc)]
      simp
    · rw [if_neg hc, List.filter_cons, if_neg (by simpa using hc)]

theorem dedupFirstAux_sublist {β : Type} [DecidableEq β] :
    ∀ (l seen : List β), (dedupFirstAux seen l).Sublist l := by
  intro l
  induction l with
  | nil => intro seen; exact List.Sublist.refl []
  | cons e rest ih =>
    intro seen
    by_cases he : e ∈ seen
    · rw [show dedupFirstAux seen (e :: rest) = dedupFirstAux seen rest from by
        simp [dedupFirstAux, he]]
      exact (ih seen).cons e
    · rw [show dedupFirstAux seen (e :: rest) = e :: dedupFirstAux (e :: seen) rest from by
        simp [dedupFirstAux, he]]
      exact (ih (e :: seen)).cons₂ e

theorem mem_of_mem_dedupFirstAux {β : Type} [DecidableEq β] {a : β}
    {l seen : List β} (h : a ∈ dedupFirstAux seen l) : a ∈ l :=
  (dedupFirstAux_sublist l seen).subset h

theorem not_seen_of_mem_dedupFirstAux {β : Type} [DecidableEq β] :
    ∀ (l : List β) (seen : List β) (a : β), a ∈ dedupFirstAux seen l → a ∉ seen := by
  intro l
  induction l with
  | nil => intro seen a h; simp [dedupFirstAux] at h
  | cons e rest ih =>
    intro seen a h
    by_cases he : e ∈ seen
    · rw [show dedupFirstAux seen (e :: rest) = dedupFirstAux seen rest from by
        simp [dedupFirstAux, he]] at h
      exact ih seen a h
    · rw [show dedupFirstAux seen (e :: rest) = e :: dedupFirstAux (e :: seen) rest from by
        simp [dedupFirstAux, he]] at h
      rcases List.mem_cons.mp h with hae | har
      · exact hae ▸ he
      · intro hs
        exact ih (e :: seen) a har (List.mem_cons_of_mem e hs)

theorem dedupFirstAux_seen_irrel {β : Type} [DecidableEq β] :
    ∀ (l : List β) (c : β) (seen : List β), c ∉ l →
      dedupFirstAux (c :: seen) l = dedupFirstAux seen l := by
  intro l
  induction l with
  | nil => intro c seen _; rfl
  | cons e rest ih =>
    intro c seen hc
    have hec : ¬ e = c := fun h2 => hc (h2 ▸ List.mem_cons_self e rest)
    have hcr : c ∉ rest := fun h2 => hc (List.mem_cons_of_mem e h2)
    by_cases he : e ∈ seen
    · rw [show dedupFirstAux (c :: seen) (e :: rest) = dedupFirstAux (c :: seen) rest from by
        simp [dedupFirstAux, he, hec]]
      rw [show dedupFirstAux seen (e :: rest) = dedupFirstAux seen rest from by
        simp [dedupFirstAux, he]]
      exact ih c seen hcr
    · have hecs : e ∉ c :: seen := by
        simp [hec, he]
      rw [show dedupFirstAux (c :: seen) (e :: rest)
          = e :: dedupFirstAux (e :: c :: seen) rest from by
        simp [dedupFirstAux, hecs]]
      rw [show dedupFirstAux seen (e :: rest)
          = e :: dedupFirstAux (e :: seen) rest from by
        simp [dedupFirstAux, he]]
      rw [dedupFirstAux_congr rest
        (show ∀ a, a ∈ e :: c :: seen ↔ a ∈ c :: e :: seen from fun a => by
          simp [List.mem_cons, or_comm, or_left_comm])]
      rw [ih c (e :: seen) hcr]

/-- On a descending-sorted list, the consecutive-run partition is the list of
distinct counts in order, each paired with the slice of posts carrying it. -/
theorem chunkRuns_sorted :
    ∀ (s : List PostAggregate), SortedByDesc PostAggregate.reactions s →
      chunkRuns s
        = (dedupFirst (s.map PostAggregate.reactions)).map
            (fun c => (c, s.filter (fun x => x.reactions = c))) := by
  intro s
  induction s with
  | nil => intro _; rfl
  | cons p rest ih =>
    intro h
    have hall : ∀ z ∈ rest, z.reactions ≤ p.reactions := by
      rw [SortedByDesc, List.pairwise_cons] at h
      exact h.1
    have hrest : SortedByDesc PostAggregate.reactions rest := by
      rw [SortedByDesc, List.pairwise_cons] at h
      exact h.2
    cases rest with
    | nil =>
      simp [chunkRuns, dedupFirst, dedupFirstAux, List.filter_cons]
    | cons q rest2 =>
      have hall2 : ∀ z ∈ rest2, z.reactions ≤ q.reactions := by
        rw [SortedByDesc, List.pairwise_cons] at hrest
        exact hrest.1
      have hIH := ih hrest
      have hD : dedupFirst ((q :: rest2).map PostAggregate.reactions)
          = q.reactions :: dedupFirstAux [q.reactions]
              (rest2.map PostAggregate.reactions) := by
        simp [dedupFirst, dedupFirstAux]
      rw [hD, List.map_cons] at hIH
      have hstep : chunkRuns (p :: q :: rest2)
          = match chunkRuns (q :: rest2) with
            | [] => [(p.reactions, [p])]
            | (c, g) :: gs =>
              if p.reactions = c then (c, p :: g) :: gs
              else (p.reactions, [p]) :: (c, g) :: gs := rfl
      rw [hstep, hIH]
      have hDp : dedupFirst ((p :: q :: rest2).map PostAggregate.reactions)
          = p.reactions :: dedupFirstAux [p.reactions]
              ((q :: rest2).map PostAggregate.reactions) := by
        simp [dedupFirst, dedupFirstAux]
      by_cases hpq : p.reactions = q.reactions
      · rw [show (match ((q.reactions,
              (q :: rest2).filter (fun x => x.reactions = q.reactions))
            :: (dedupFirstAux [q.reactions] (rest2.map PostAggregate.reactions)).map
                (fun c => (c, (q :: rest2).filter (fun x => x.reactions = c)))) with
            | [] => [(p.reactions, [p])]
            | (c, g) :: gs =>
              if p.reactions = c then (c, p :: g) :: gs
              else (p.reactions, [p]) :: (c, g) :: gs)
            = (q.reactions,
                p :: (q :: rest2).filter (fun x => x.reactions = q.reactions))
              :: (dedupFirstAux [q.reactions] (rest2.map PostAggregate.reactions)).map
                  (fun c => (c, (q :: rest2).filter (fun x => x.reactions = c))) from by
          simp [hpq]]
        rw [hDp]
        have hseen : dedupFirstAux [p.reactions]
              ((q :: rest2).map PostAggregate.reactions)
            = dedupFirstAux [q.reactions] (rest2.map PostAggregate.reactions) := by
          rw [show (q :: rest2).map PostAggregate.reactions
              = q.reactions :: rest2.map PostAggregate.reactions from rfl]
          rw [show dedupFirstAux [p.reactions]
                (q.reactions :: rest2.map PostAggregate.reactions)
              = dedupFirstAux [p.reactions] (rest2.map PostAggregate.reactions) from by
            simp [dedupFirstAux, hpq]]
          exact dedupFirstAux_congr (rest2.map PostAggregate.reactions)
            (fun a => by simp [hpq])
        rw [hseen, List.map_cons]
        refine congrArg₂ (· :: ·) ?_ ?_
        · have hfil : (p :: q :: rest2).filter (fun x => x.reactions = p.reactions)
              = p :: (q :: rest2).filter (fun x => x.reactions = p.reactions) := by
            rw [List.filter_cons, if_pos (by simp)]
          rw [hfil, hpq]
        · apply List.map_congr_left
          intro c hc
          have hcq : c ∉ [q.reactions] := not_seen_of_mem_dedupFirstAux _ _ c hc
          have hnc : ¬ p.reactions = c := by
            intro h2
            apply hcq
            simp [← h2, hpq]
          have hfil : (p :: q :: rest2).filter (fun x => x.reactions = c)
              = (q :: rest2).filter (fun x => x.reactions = c) := by
            rw [List.filter_cons, if_neg (by simpa using hnc)]
          rw [hfil]
      · have hq_lt : q.reactions < p.reactions := by
          have := hall q (List.mem_cons_self q rest2)
          omega
        have hnotmem : p.reactions ∉ (q :: rest2).map PostAggregate.reactions := by
          simp only [List.map_cons, List.mem_cons, List.mem_map]
          push_neg
          refine ⟨fun h2 => hpq h2, ?_⟩
          intro z hz h2
          have := hall2 z hz
          omega
        rw [show (match ((q.reactions,
              (q :: rest2).filter (fun x => x.reactions = q.reactions))
            :: (dedupFirstAux [q.reactions] (rest2.map PostAggregate.reactions)).map
                (fun c => (c, (q :: rest2).filter (fun x => x.reactions = c)))) with
            | [] => [(p.reactions, [p])]
            | (c, g) :: gs =>
              if p.reactions = c then (c, p :: g) :: gs
              else (p.reactions, [p]) :: (c, g) :: gs)
            = (p.reactions, [p])
              :: (q.reactions,
                  (q :: rest2).filter (fun x => x.reactions = q.reactions))
              :: (dedupFirstAux [q.reactions] (rest2.map PostAggregate.reactions)).map
                  (fun c => (c, (q :: rest2).filter (fun x => x.reactions = c))) from by
          simp [hpq]]
        rw [hDp]
        rw [dedupFirstAux_seen_irrel ((q :: rest2).map PostAggregate.reactions)
          p.reactions [] hnotmem]
        rw [show dedupFirstAux ([] : List Nat) ((q :: rest2).map PostAggregate.reactions)
            = dedupFirst ((q :: rest2).map PostAggregate.reactions) from rfl]
        rw [hD, List.map_cons, List.map_cons]
        refine congrArg₂ (· :: ·) ?_ (congrArg₂ (· :: ·) ?_ ?_)
        · have hfil : (p :: q :: rest2).filter (fun x => x.reactions = p.reactions)
              = p :: (q :: rest2).filter (fun x => x.reactions = p.reactions) := by
            rw [List.filter_cons, if_pos (by simp)]
          rw [hfil]
          have hnil : (q :: rest2).filter (fun x => x.reactions = p.reactions) = [] := by
            rw [List.filter_eq_nil_iff]
            intro z hz
            simp only [decide_eq_true_eq]
            rcases List.mem_cons.mp hz with hzq | hz2
            · subst hzq
              omega
            · have := hall2 z hz2
              omega
          rw [hnil]
        · have hfil : (p :: q :: rest2).filter (fun x => x.reactions = q.reactions)
              = (q :: rest2).filter (fun x => x.reactions = q.reactions) := by
            rw [List.filter_cons, if_neg (by simpa using hpq)]
          rw [hfil]
        · apply List.map_congr_left
          intro c hc
          have hcr : c ∈ rest2.map PostAggregate.reactions :=
            mem_of_mem_dedupFirstAux hc
          have hclt : c < p.reactions := by
            rcases List.mem_map.mp hcr with ⟨z, hz, hzc⟩
            have := hall2 z hz
            omega
          have hnc : ¬ p.reactions = c := by omega
          have hfil : (p :: q :: rest2).filter (fun x => x.reactions = c)
              = (q :: rest2).filter (fun x => x.reactions = c) := by
            rw [List.filter_cons, if_neg (by simpa using hnc)]
          rw [hfil]

/-- The distinct counts of a descending-sorted list are themselves
descending, so Python's `sorted(grouped_posts.keys(), reverse=True)` leaves
them unchanged. -/
theorem sortByDesc_keys_of_sorted {s : List PostAggregate}
    (h : SortedByDesc PostAggregate.reactions s) :
    sortByDesc id (dedupFirst (s.map PostAggregate.reactions))
      = dedupFirst (s.map PostAggregate.reactions) := by
  apply sortByDesc_of_sorted
  have hmap : List.Pairwise (fun a b => b ≤ a)
      (s.map PostAggregate.reactions) := by
    exact List.Pairwise.map PostAggregate.reactions (fun a b hab => hab) h
  have hsub : (dedupFirst (s.map PostAggregate.reactions)).Sublist
      (s.map PostAggregate.reactions) := dedupFirstAux_sublist _ []
  exact List.Pairwise.sublist hsub hmap

theorem rankLoop_eq_take (gs : List (Nat × List PostAggregate)) (topN : Nat) :
    ∀ (ks : List Nat) (r : Nat),
      rankLoop gs topN r ks
        = (withRanks r (ks.map (fun c => (c, lookupGroup gs c)))).take (topN + 1 - r) := by
  intro ks
  induction ks with
  | nil => intro r; simp [rankLoop, withRanks]
  | cons c cs ih =>
    intro r
    by_cases hr : topN < r
    · rw [show rankLoop gs topN r (c :: cs) = [] from by simp [rankLoop, hr]]
      rw [show topN + 1 - r = 0 from by omega]
      rfl
    · rw [show rankLoop gs topN r (c :: cs)
          = (r, c, lookupGroup gs c) :: rankLoop gs topN (r + 1) cs from by
        simp [rankLoop, hr]]
      rw [List.map_cons,
        show withRanks r ((c, lookupGroup gs c)
            :: cs.map (fun c => (c, lookupGroup gs c)))
          = (r, c, lookupGroup gs c)
            :: withRanks (r + 1) (cs.map (fun c => (c, lookupGroup gs c))) from rfl]
      rw [show topN + 1 - r = (topN + 1 - (r + 1)) + 1 from by omega]
      rw [List.take_succ_cons]
      rw [ih (r + 1)]

/-- The code's grouping-and-ranking pipeline equals the specification's
reference leaderboard algorithm. -/
theorem rankEntries_eq_refLeaderboard (data : List PostAggregate) (topN : Nat) :
    rankEntries data topN = refLeaderboard data topN := by
  have hs : SortedByDesc PostAggregate.reactions
      (sortByDesc PostAggregate.reactions (data.filter (fun p => 0 < p.reactions))) :=
    sortByDesc_sorted _ _
  have hgroup : groupedPosts data
      = (sortByDesc PostAggregate.reactions
          (data.filter (fun p => 0 < p.reactions))).foldl
            (fun gs p => addToGroup gs p.reactions p) [] :=
    groupedPosts_eq_filter data
  have hkeys : (groupedPosts data).map Prod.fst
      = dedupFirst ((sortByDesc PostAggregate.reactions
          (data.filter (fun p => 0 < p.reactions))).map PostAggregate.reactions) := by
    rw [hgroup, groupFold_keys]
    simp [dedupFirst]
  have hlook : ∀ c, lookupGroup (groupedPosts data) c
      = (sortByDesc PostAggregate.reactions
          (data.filter (fun p => 0 < p.reactions))).filter
            (fun x => x.reactions = c) := by
    intro c
    rw [hgroup, groupFold_lookup]
    simp [lookupGroup, List.find?]
  rw [rankEntries, hkeys, sortByDesc_keys_of_sorted hs, rankLoop_eq_take]
  rw [show topN + 1 - 1 = topN from by omega]
  rw [refLeaderboard]
  congr 1
  congr 1
  rw [chunkRuns_sorted _ hs]
  apply List.map_congr_left
  intro c hc
  rw [hlook c]

/-- Claim C3: for every PostAggregate collection and every top_n limit, the
leaderboard the ranking logic produces (shared by
core_logic.generate_markdown_output and commands.generate_enhanced_ranking)
equals the reference algorithm of the specification: discard zero-count
aggregates, stable-sort by count descending, partition into consecutive
equal-count groups preserving sort order, assign dense consecutive ranks
1, 2, 3, … and include whole groups while the rank is at most top_n. -/
theorem ranking_matches_reference (data : List PostAggregate) (topN : Nat) :
    rankEntries data topN = refLeaderboard data topN :=
  rankEntries_eq_refLeaderboard data topN

theorem mem_withRanks {e : Nat × Nat × List PostAggregate} :
    ∀ (gs : List (Nat × List PostAggregate)) (r : Nat),
      e ∈ withRanks r gs → (e.2.1, e.2.2) ∈ gs := by
  intro gs
  induction gs with
  | nil => intro r h; simp [withRanks] at h
  | cons g rest ih =>
    intro r h
    rcases g with ⟨c, mem⟩
    rw [show withRanks r ((c, mem) :: rest)
        = (r, c, mem) :: withRanks (r + 1) rest from rfl] at h
    rcases List.mem_cons.mp h with he | he
    · rw [he]
      exact List.mem_cons_self _ _
    · exact List.mem_cons_of_mem _ (ih (r + 1) he)

/-- total_image_posts_count (commands.py, line 121): the reported total is
just the number of per-post aggregates, regardless of their counts. -/
def total_image_posts_count (processedData : List PostAggregate) : Nat :=
  processedData.length

/-- Claim C5 (amended): in the leaderboards of the filtered renderers
(core_logic.generate_markdown_output and commands.generate_enhanced_ranking),
every rank group has a shared count strictly greater than 0 and a non-empty
member list whose members all have positive counts equal to the shared count
— zero-count posts never appear there — while the reported total-posts figure
still counts every aggregate; the legacy main.py renderer, by contrast, can
include zero-count posts (see the counterexample). -/
theorem rank_groups_positive :
    (∀ (data : List PostAggregate) (topN : Nat)
        (e : Nat × Nat × List PostAggregate), e ∈ rankEntries data topN →
      0 < e.2.1 ∧ e.2.2 ≠ [] ∧ ∀ p ∈ e.2.2, 0 < p.reactions ∧ p.reactions = e.2.1) ∧
    (∀ msgs : List Post,
      total_image_posts_count (msgs.map get_post_data) = msgs.length) := by
  constructor
  · intro data topN e he
    rw [rankEntries_eq_refLeaderboard, refLeaderboard] at he
    have he2 := List.take_subset _ _ he
    have he3 := mem_withRanks _ 1 he2
    have hs : SortedByDesc PostAggregate.reactions
        (sortByDesc PostAggregate.reactions
          (data.filter (fun p => 0 < p.reactions))) :=
      sortByDesc_sorted _ _
    rw [chunkRuns_sorted _ hs] at he3
    rcases List.mem_map.mp he3 with ⟨c, hc, hce⟩
    have hc1 : e.2.1 = c := (congrArg Prod.fst hce).symm
    have hc2 : e.2.2 = (sortByDesc PostAggregate.reactions
        (data.filter (fun p => 0 < p.reactions))).filter
          (fun x => x.reactions = c) := (congrArg Prod.snd hce).symm
    have hcm : c ∈ (sortByDesc PostAggregate.reactions
        (data.filter (fun p => 0 < p.reactions))).map PostAggregate.reactions :=
      mem_of_mem_dedupFirstAux hc
    rcases List.mem_map.mp hcm with ⟨w, hw, hwc⟩
    have hwdata : w ∈ data.filter (fun p => 0 < p.reactions) :=
      (mem_sortByDesc PostAggregate.reactions).mp hw
    have hwpos : 0 < w.reactions := by
      have := List.of_mem_filter hwdata
      simpa using this
    refine ⟨?_, ?_, ?_⟩
    · rw [hc1, ← hwc]
      exact hwpos
    · rw [hc2]
      apply List.ne_nil_of_mem
      exact List.mem_filter.mpr ⟨hw, by simpa using hwc⟩
    · intro p hp
      rw [hc2] at hp
      have hps := List.mem_filter.mp hp
      have hpc : p.reactions = c := by simpa using hps.2
      have hpdata : p ∈ data.filter (fun x => 0 < x.reactions) :=
        (mem_sortByDesc PostAggregate.reactions).mp hps.1
      have hppos : 0 < p.reactions := by
        have := List.of_mem_filter hpdata
        simpa using this
      exact ⟨hppos, by rw [hpc, hc1]⟩
  · intro msgs
    rw [total_image_posts_count, List.length_map]

/-- A sample aggregate with one external reaction. -/
def sampleAggA : PostAggregate :=
  { post_link := "https://discord.com/channels/9/2/1", image_links := "",
    posted_at := "2024-01-01T00:00:00", author := "alice", reactions := 1,
    individual_reactions := [("⭐", 1)] }

/-- A sample aggregate with zero external reactions. -/
def sampleAggB : PostAggregate :=
  { post_link := "https://discord.com/channels/9/2/3", image_links := "",
    posted_at := "2024-01-02T00:00:00", author := "bob", reactions := 0,
    individual_reactions := [] }

/-- Claim C5 (counterexample): the legacy renderer in main.py (its grouping
has no positive-count guard) renders a leaderboard containing a rank group of
count 0 whose member has zero external reactions, as soon as at least one
post has a positive count — so "zero-count posts never appear in the
leaderboard section of any rendered report" fails on this renderer. -/
theorem legacy_renderer_zero_count_group :
    rankEntriesLegacy [sampleAggA, sampleAggB] 5
      = [(1, 1, [sampleAggA]), (2, 0, [sampleAggB])] ∧
    ¬ (∀ e ∈ rankEntriesLegacy [sampleAggA, sampleAggB] 5,
        0 < e.2.1 ∧ ∀ p ∈ e.2.2, 0 < p.reactions) := by
  refine ⟨by decide, by decide⟩

/-- Claim C5 (witness for the amended theorem): the group invariant at a
concrete input. -/
theorem rank_groups_positive_witness :
    0 < ((1, 1, [sampleAggA]) : Nat × Nat × List PostAggregate).2.1 ∧
    ((1, 1, [sampleAggA]) : Nat × Nat × List PostAggregate).2.2 ≠ [] ∧
    ∀ p ∈ ((1, 1, [sampleAggA]) : Nat × Nat × List PostAggregate).2.2,
      0 < p.reactions ∧ p.reactions
        = ((1, 1, [sampleAggA]) : Nat × Nat × List PostAggregate).2.1 :=
  rank_groups_positive.1 [sampleAggA, sampleAggB] 5 (1, 1, [sampleAggA]) (by decide)

/-! ### Report renderers (core_logic.py lines 114-187, commands.py lines
248-309, main.py lines 166-229) -/

/-- Python `s.rstrip()`. -/
def pyRstrip (s : String) : String :=
  String.mk (s.toList.reverse.dropWhile pySpace).reverse

/-- The summary header shared by core_logic.generate_markdown_output
(lines 118-122) and commands.generate_enhanced_ranking (lines 250-254). -/
def summaryHeader (tp tr tu : Nat) : String :=
  "🏆 **Photo Challenge Results** 🏆\n\n📊 **Summary:**\n• Total photos: `"
    ++ toString tp ++ "`\n• Total votes (excluding authors): `" ++ toString tr
    ++ "`\n• Unique voters: `" ++ toString tu ++ "`\n\n"

/-- Rank marker: medals for ranks 1-3, a numbered keycap otherwise. -/
def rankMarker (rank : Nat) : String :=
  if rank = 1 then "🥇"
  else if rank = 2 then "🥈"
  else if rank = 3 then "🥉"
  else toString rank ++ "️⃣"

/-- The `⭐ … votes …` member line (with the space-separated emoji list when
the breakdown is non-empty). -/
def voteLine (p : PostAggregate) : String :=
  "      ⭐ " ++ toString p.reactions ++ " votes"
    ++ (if p.individual_reactions ≠ [] then
          " " ++ String.intercalate " " (p.individual_reactions.map Prod.fst)
        else "")

/-- The optional image-link line: `post['image_links'].split(', ')[0]`,
emitted when non-empty. -/
def imageLine (p : PostAggregate) : List String :=
  if (p.image_links.splitOn ", ").headD "" ≠ "" then
    ["      🔗 [View Image](" ++ (p.image_links.splitOn ", ").headD "" ++ ")"]
  else []

/-- The lines of one member of a rank group in
core_logic.generate_markdown_output (lines 164-181). -/
def postLines (includeImageLinks : Bool) (p : PostAggregate) : List String :=
  ("   📸 **[" ++ p.author ++ "](" ++ p.post_link ++ ")**")
    :: (if includeImageLinks then imageLine p ++ [voteLine p] else [])

/-- The lines of one rank group (rank marker line plus member lines) in
core_logic.generate_markdown_output (lines 155-183). -/
def groupLines (includeImageLinks : Bool)
    (e : Nat × Nat × List PostAggregate) : List String :=
  (rankMarker e.1 ++ " **Rank " ++ toString e.1 ++ "**"
      ++ (if includeImageLinks then " (`" ++ toString e.2.1 ++ "` votes)" else ""))
    :: e.2.2.flatMap (postLines includeImageLinks)

/-- generate_markdown_output (core_logic.py, lines 114-187). -/
def generate_markdown_output (data : List PostAggregate)
    (numTopPosts tp tr tu : Nat) (includeImageLinks : Bool) : String :=
  if data.isEmpty || data.all (fun d => d.reactions == 0) then
    summaryHeader tp tr tu ++ "📷 No posts found with external votes to display."
  else if (groupedPosts data).isEmpty then
    summaryHeader tp tr tu ++ "🥇 **Top "
      ++ toString (min numTopPosts (data.filter (fun d => 0 < d.reactions)).length)
      ++ " Image Posts:**\n\n"
      ++ "No posts found with external votes to display."
  else
    summaryHeader tp tr tu ++ "🥇 **Top "
      ++ toString (min numTopPosts (data.filter (fun d => 0 < d.reactions)).length)
      ++ " Image Posts:**\n\n"
      ++ pyRstrip (String.intercalate "\n"
          ((rankEntries data numTopPosts).flatMap
            (fun e => groupLines includeImageLinks e ++ [""])))

/-- generate_enhanced_ranking (commands.py, lines 248-309): vote counts per
rank always shown, no image links, top 5 fixed. -/
def generate_enhanced_ranking (data : List PostAggregate) (tp tr tu : Nat) : String :=
  if data.isEmpty || data.all (fun d => d.reactions == 0) then
    summaryHeader tp tr tu ++ "📷 No posts found with external votes to display."
  else if (groupedPosts data).isEmpty then
    summaryHeader tp tr tu ++ "🥇 **Top "
      ++ toString (min 5 (data.filter (fun d => 0 < d.reactions)).length)
      ++ " Image Posts:**\n\n"
      ++ "No posts found with external votes to display."
  else
    summaryHeader tp tr tu ++ "🥇 **Top "
      ++ toString (min 5 (data.filter (fun d => 0 < d.reactions)).length)
      ++ " Image Posts:**\n\n"
      ++ pyRstrip (String.intercalate "\n"
          ((rankEntries data 5).flatMap
            (fun e =>
              ((rankMarker e.1 ++ " **Rank " ++ toString e.1 ++ "** (`"
                  ++ toString e.2.1 ++ "` votes)")
                :: e.2.2.flatMap (fun p =>
                  ["   📸 **[" ++ p.author ++ "](" ++ p.post_link ++ ")**",
                   voteLine p]))
                ++ [""])))

/-- The legacy generate_markdown_output (main.py, lines 166-229): different
header text, the Top-posts heading is printed before the emptiness check,
the grouping has no zero-count filter, and there is no spacing line between
ranks nor a final rstrip. -/
def main_generate_markdown_output (data : List PostAggregate)
    (numTopPosts tp tr tu : Nat) (includeImageLinks : Bool) : String :=
  "__Photo Challenge Report__\n\n- Total photos: `" ++ toString tp
    ++ "`\n- Total votes (excluding author's own): `" ++ toString tr
    ++ "`\n- Total unique users who voted : `" ++ toString tu
    ++ "`\n\n__Top Image Posts by Reactions:__\n\n"
    ++ (if data.isEmpty || data.all (fun d => d.reactions == 0) then
          "No posts found with external votes to display."
        else
          String.intercalate "\n"
            ((rankEntriesLegacy data numTopPosts).flatMap
              (fun e =>
                ("**" ++ toString e.1 ++ ".**"
                    ++ (if includeImageLinks then
                          " (Votes: `" ++ toString e.2.1 ++ "`)"
                        else ""))
                  :: e.2.2.flatMap (fun p =>
                    ("   - **[Post by " ++ p.author ++ "](" ++ p.post_link ++ ")**")
                      :: (if includeImageLinks then
                            (if (p.image_links.splitOn ", ").headD "" ≠ "" then
                              ["      - [Image URL]("
                                ++ (p.image_links.splitOn ", ").headD "" ++ ")"]
                            else [])
                            ++ ["      - Post Votes: `" ++ toString p.reactions ++ "`"
                                ++ (if p.individual_reactions ≠ [] then
                                      " (" ++ String.intercalate " "
                                        (p.individual_reactions.map Prod.fst) ++ ")"
                                    else "")]
                          else [])))))

/-! ### Claim about empty leaderboards -/

/-- Claim C6: when the aggregate collection is empty or every aggregate has
zero external reactions, the renderer in both detail levels
(generate_markdown_output with and without image links) and the enhanced
renderer emit the fixed no-qualifying-posts sentence instead of a leaderboard
section, while the header block still reports the passed total-posts,
total-external-reactions and unique-voter figures. -/
theorem renderers_empty_leaderboard (data : List PostAggregate)
    (numTopPosts tp tr tu : Nat)
    (h : data = [] ∨ ∀ p ∈ data, p.reactions = 0) :
    (∀ includeImageLinks : Bool,
      generate_markdown_output data numTopPosts tp tr tu includeImageLinks
        = summaryHeader tp tr tu
          ++ "📷 No posts found with external votes to display.") ∧
    generate_enhanced_ranking data tp tr tu
      = summaryHeader tp tr tu
        ++ "📷 No posts found with external votes to display." := by
  have hcond : (data.isEmpty || data.all (fun d => d.reactions == 0)) = true := by
    rcases h with h | h
    · rw [h]
      rfl
    · have hall : data.all (fun d => d.reactions == 0) = true := by
        rw [List.all_eq_true]
        intro p hp
        simpa using h p hp
      rw [hall, Bool.or_true]
  constructor
  · intro flag
    rw [generate_markdown_output, if_pos hcond]
  · rw [generate_enhanced_ranking, if_pos hcond]

/-- Claim C6 (witness): the empty collection at concrete header figures. -/
theorem renderers_empty_leaderboard_witness :
    (∀ includeImageLinks : Bool,
      generate_markdown_output [] 5 3 0 0 includeImageLinks
        = summaryHeader 3 0 0
          ++ "📷 No posts found with external votes to display.") ∧
    generate_enhanced_ranking [] 3 0 0
      = summaryHeader 3 0 0
        ++ "📷 No posts found with external votes to display." :=
  renderers_empty_leaderboard [] 5 3 0 0 (Or.inl rfl)

/-! ### Thread summary metrics (commands.py, lines 120-132; the same loop
appears in main.py lines 263-275) -/

/-- The inner users-loop of the summary pass: count each non-author reactor
and add it to the unique-reactors set. -/
def summarizeUsers (a : Nat) (st : Nat × Finset Nat) (us : List Nat) :
    Nat × Finset Nat :=
  us.foldl (fun st3 u => if u ≠ a then (st3.1 + 1, insert u st3.2) else st3) st

/-- The reactions-loop of the summary pass. -/
def summarizeReactions (a : Nat) (st : Nat × Finset Nat) (rs : List Reaction) :
    Nat × Finset Nat :=
  rs.foldl (fun st2 r => summarizeUsers a st2 r.users) st

/-- The whole summary pass over the qualifying messages
(total_thread_reactions and unique_reactors_ids). -/
def summarize (msgs : List Post) : Nat × Finset Nat :=
  msgs.foldl (fun st m => summarizeReactions m.author st m.reactions) (0, ∅)

/-- Reference (spec wording): the non-author reactor identities of a post. -/
def nonAuthorIds (m : Post) : List Nat :=
  m.reactions.flatMap (fun r => r.users.filter (fun u => u ≠ m.author))

theorem summarizeUsers_eq (a : Nat) :
    ∀ (us : List Nat) (st : Nat × Finset Nat),
      summarizeUsers a st us
        = (st.1 + (us.filter (fun u => u ≠ a)).length,
           st.2 ∪ (us.filter (fun u => u ≠ a)).toFinset) := by
  intro us
  induction us with
  | nil =>
    intro st
    simp [summarizeUsers]
  | cons u rest ih =>
    intro st
    by_cases hu : u ≠ a
    · rw [show summarizeUsers a st (u :: rest)
          = summarizeUsers a (st.1 + 1, insert u st.2) rest from by
        simp [summarizeUsers, hu]]
      rw [ih]
      rw [List.filter_cons, if_pos (by simpa using hu)]
      simp [List.toFinset_cons, Finset.insert_union, Finset.union_insert]
      omega
    · have hua : u = a := by omega
      rw [show summarizeUsers a st (u :: rest) = summarizeUsers a st rest from by
        simp [summarizeUsers, hua]]
      rw [ih]
      rw [List.filter_cons, if_neg (by simpa using hu)]

theorem summarizeReactions_eq (a : Nat) :
    ∀ (rs : List Reaction) (st : Nat × Finset Nat),
      summarizeReactions a st rs
        = (st.1 + (rs.map (fun r => (r.users.filter (fun u => u ≠ a)).length)).sum,
           st.2 ∪ (rs.flatMap (fun r => r.users.filter (fun u => u ≠ a))).toFinset) := by
  intro rs
  induction rs with
  | nil =>
    intro st
    simp [summarizeReactions]
  | cons r rest ih =>
    intro st
    rw [show summarizeReactions a st (r :: rest)
        = summarizeReactions a (summarizeUsers a st r.users) rest from rfl]
    rw [ih, summarizeUsers_eq]
    rw [List.flatMap_cons, List.toFinset_append]
    simp [Finset.union_assoc]
    omega

theorem summarize_eq (msgs : List Post) :
    summarize msgs
      = ((msgs.map externalPairCount).sum, (msgs.flatMap nonAuthorIds).toFinset) := by
  have hgen : ∀ (l : List Post) (st : Nat × Finset Nat),
      l.foldl (fun st m => summarizeReactions m.author st m.reactions) st
        = (st.1 + (l.map externalPairCount).sum,
           st.2 ∪ (l.flatMap nonAuthorIds).toFinset) := by
    intro l
    induction l with
    | nil =>
      intro st
      simp
    | cons m rest ih =>
      intro st
      rw [List.foldl_cons, ih, summarizeReactions_eq]
      rw [List.flatMap_cons, List.toFinset_append]
      simp [Finset.union_assoc, externalPairCount, nonAuthorIds]
      omega
  rw [summarize, hgen]
  simp

/-- Claim C9: for every collection of qualifying posts, the thread summary
satisfies: total_posts is the number of per-post aggregates,
total_external_reactions is the sum of the aggregates' per-post totals, and
unique_reactor_count is the size of the set union of all non-author reactor
identities across the qualifying posts. -/
theorem thread_summary_correct (msgs : List Post) :
    total_image_posts_count (msgs.map get_post_data) = (msgs.map get_post_data).length ∧
    (summarize msgs).1 = ((msgs.map get_post_data).map PostAggregate.reactions).sum ∧
    (summarize msgs).2 = (msgs.flatMap nonAuthorIds).toFinset ∧
    (summarize msgs).2.card = (msgs.flatMap nonAuthorIds).toFinset.card := by
  refine ⟨rfl, ?_, ?_, ?_⟩
  · rw [summarize_eq, List.map_map]
    show (msgs.map externalPairCount).sum
      = (List.map (PostAggregate.reactions ∘ get_post_data) msgs).sum
    congr 1
    apply List.map_congr_left
    intro m _
    rw [Function.comp_apply, get_post_data_total_external]
  · rw [summarize_eq]
  · rw [summarize_eq]

/-! ### Tabular export: generate_csv (core_logic.py, lines 88-112)

The flattening loop (lines 96-99) copies each aggregate dict and removes
`individual_reactions` from the copy only.  Whether the input dicts are
mutated is a statement about the Python heap, so this part is embedded over
an explicit store: addresses are allocated in sequence, `item.copy()`
allocates a fresh address with the same contents, and `.pop` updates only
the copy's address.  The file write itself (lines 101-112) is external I/O
and out of scope. -/

/-- The value of one field of an aggregate dict. -/
inductive PVal where
  | s (v : String)
  | n (v : Nat)
  | breakdown (v : List (String × Nat))
deriving DecidableEq

/-- A Python dict as an association list of fields. -/
abbrev PDict := List (String × PVal)

/-- A heap of dicts: the next fresh address and the memory. -/
structure Heap where
  next : Nat
  mem : List (Nat × PDict)
deriving DecidableEq

def heapGet (h : Heap) (a : Nat) : PDict :=
  (((h.mem.find? (fun kv => kv.1 = a))).map Prod.snd).getD []

def setAssoc : List (Nat × PDict) → Nat → PDict → List (Nat × PDict)
  | [], a, d => [(a, d)]
  | (b, e) :: rest, a, d =>
    if b = a then (a, d) :: rest else (b, e) :: setAssoc rest a d

def heapSet (h : Heap) (a : Nat) (d : PDict) : Heap :=
  { h with mem := setAssoc h.mem a d }

/-- `item.copy()`: allocate a fresh dict with the same contents. -/
def alloc (h : Heap) (d : PDict) : Nat × Heap :=
  (h.next, { next := h.next + 1, mem := (h.next, d) :: h.mem })

/-- `temp_item.pop('individual_reactions', None)`: remove the field. -/
def popKey (d : PDict) (k : String) : PDict :=
  d.filter (fun kv => kv.1 ≠ k)

/-- The row-flattening loop of generate_csv (lines 96-99):
`temp_item = item.copy(); temp_item.pop('individual_reactions', None);
csv_data.append(temp_item)`, over a heap of dicts. -/
def csvLoop : Heap → List Nat → List Nat × Heap
  | h, [] => ([], h)
  | h, a :: rest =>
    let r := alloc h (heapGet h a)
    let h2 := heapSet r.2 r.1 (popKey (heapGet r.2 r.1) "individual_reactions")
    let q := csvLoop h2 rest
    (r.1 :: q.1, q.2)

/-- generate_csv (core_logic.py, lines 88-99, the pure part): `None` for the
empty input (export skipped), otherwise the flattened row dicts. -/
def generate_csv (h : Heap) (data : List Nat) : Option (List Nat) × Heap :=
  if data.isEmpty then (none, h)
  else
    let r := csvLoop h data
    (some r.1, r.2)

theorem heapGet_alloc_ne (h : Heap) (d : PDict) {a : Nat} (ha : ¬ a = h.next) :
    heapGet (alloc h d).2 a = heapGet h a := by
  have hna : ¬ h.next = a := fun h2 => ha h2.symm
  simp [alloc, heapGet, List.find?, hna]

theorem heapGet_alloc_self (h : Heap) (d : PDict) :
    heapGet (alloc h d).2 h.next = d := by
  simp [alloc, heapGet, List.find?]

theorem find?_setAssoc_same :
    ∀ (mem : List (Nat × PDict)) (a : Nat) (d : PDict),
      (setAssoc mem a d).find? (fun kv => kv.1 = a) = some (a, d) := by
  intro mem
  induction mem with
  | nil => intro a d; simp [setAssoc, List.find?]
  | cons kv rest ih =>
    intro a d
    rcases kv with ⟨b, e⟩
    by_cases hb : b = a
    · rw [show setAssoc ((b, e) :: rest) a d = (a, d) :: rest from by
        simp [setAssoc, hb]]
      simp [List.find?]
    · rw [show setAssoc ((b, e) :: rest) a d = (b, e) :: setAssoc rest a d from by
        simp [setAssoc, hb]]
      simp [List.find?, hb]
      exact ih a d

theorem find?_setAssoc_other :
    ∀ (mem : List (Nat × PDict)) (a c : Nat) (d : PDict), ¬ c = a →
      (setAssoc mem a d).find? (fun kv => kv.1 = c)
        = mem.find? (fun kv => kv.1 = c) := by
  intro mem
  induction mem with
  | nil =>
    intro a c d hca
    have hac : ¬ a = c := fun h2 => hca h2.symm
    simp [setAssoc, List.find?, hac]
  | cons kv rest ih =>
    intro a c d hca
    rcases kv with ⟨b, e⟩
    have hac : ¬ a = c := fun h2 => hca h2.symm
    by_cases hb : b = a
    · rw [show setAssoc ((b, e) :: rest) a d = (a, d) :: rest from by
        simp [setAssoc, hb]]
      simp [List.find?, hb, hac]
    · rw [show setAssoc ((b, e) :: rest) a d = (b, e) :: setAssoc rest a d from by
        simp [setAssoc, hb]]
      by_cases hbc : b = c
      · simp [List.find?, hbc]
      · simp [List.find?, hbc]
        exact ih a c d hca

theorem heapGet_heapSet_same (h : Heap) (a : Nat) (d : PDict) :
    heapGet (heapSet h a d) a = d := by
  rw [heapGet, heapSet]
  rw [show ({ h with mem := setAssoc h.mem a d } : Heap).mem
      = setAssoc h.mem a d from rfl]
  rw [find?_setAssoc_same]
  rfl

theorem heapGet_heapSet_other (h : Heap) (a c : Nat) (d : PDict) (hca : ¬ c = a) :
    heapGet (heapSet h a d) c = heapGet h c := by
  rw [heapGet, heapSet]
  rw [show ({ h with mem := setAssoc h.mem a d } : Heap).mem
      = setAssoc h.mem a d from rfl]
  rw [find?_setAssoc_other h.mem a c d hca]
  rfl

/-- The heap after one iteration of the flattening loop on address `a`: the
copy has been allocated and its `individual_reactions` entry removed. -/
def csvStepHeap (h : Heap) (a : Nat) : Heap :=
  heapSet (alloc h (heapGet h a)).2 (alloc h (heapGet h a)).1
    (popKey (heapGet (alloc h (heapGet h a)).2 (alloc h (heapGet h a)).1)
      "individual_reactions")

theorem csvLoop_cons (h : Heap) (a : Nat) (rest : List Nat) :
    csvLoop h (a :: rest)
      = (h.next :: (csvLoop (csvStepHeap h a) rest).1,
         (csvLoop (csvStepHeap h a) rest).2) := rfl

theorem csvStepHeap_next (h : Heap) (a : Nat) :
    (csvStepHeap h a).next = h.next + 1 := rfl

theorem csvStepHeap_get_new (h : Heap) (a : Nat) :
    heapGet (csvStepHeap h a) h.next
      = popKey (heapGet h a) "individual_reactions" := by
  have h1 : (alloc h (heapGet h a)).1 = h.next := rfl
  rw [csvStepHeap, h1, heapGet_heapSet_same, heapGet_alloc_self]

theorem csvStepHeap_get_old (h : Heap) (a : Nat) {b : Nat} (hb : b < h.next) :
    heapGet (csvStepHeap h a) b = heapGet h b := by
  have h1 : (alloc h (heapGet h a)).1 = h.next := rfl
  have hbn : ¬ b = h.next := by omega
  rw [csvStepHeap, h1, heapGet_heapSet_other _ _ _ _ hbn, heapGet_alloc_ne h _ hbn]

theorem csvLoop_spec :
    ∀ (l : List Nat) (h : Heap), (∀ a ∈ l, a < h.next) →
      h.next ≤ (csvLoop h l).2.next ∧
      (∀ a, a < h.next → heapGet (csvLoop h l).2 a = heapGet h a) ∧
      (csvLoop h l).1.length = l.length ∧
      (∀ pr ∈ (csvLoop h l).1.zip l,
        heapGet (csvLoop h l).2 pr.1
          = popKey (heapGet h pr.2) "individual_reactions") := by
  intro l
  induction l with
  | nil =>
    intro h _
    refine ⟨Nat.le_refl _, fun a _ => rfl, rfl, ?_⟩
    intro pr hpr
    simp [csvLoop] at hpr
  | cons a rest ih =>
    intro h hlt
    have ha : a < h.next := hlt a (List.mem_cons_self a rest)
    have hrest_lt : ∀ b ∈ rest, b < (csvStepHeap h a).next := by
      intro b hb
      rw [csvStepHeap_next]
      have := hlt b (List.mem_cons_of_mem a hb)
      omega
    have hIH := ih (csvStepHeap h a) hrest_lt
    have hn_lt : h.next < (csvStepHeap h a).next := by
      rw [csvStepHeap_next]
      omega
    refine ⟨?_, ?_, ?_, ?_⟩
    · show h.next ≤ (csvLoop (csvStepHeap h a) rest).2.next
      have h2 := hIH.1
      rw [csvStepHeap_next] at h2
      omega
    · intro b hb
      show heapGet (csvLoop (csvStepHeap h a) rest).2 b = heapGet h b
      have hblt : b < (csvStepHeap h a).next := by
        rw [csvStepHeap_next]
        omega
      rw [hIH.2.1 b hblt, csvStepHeap_get_old h a hb]
    · show (h.next :: (csvLoop (csvStepHeap h a) rest).1).length = (a :: rest).length
      simp [hIH.2.2.1]
    · intro pr hpr
      rw [show (csvLoop h (a :: rest)).1.zip (a :: rest)
          = (h.next, a) :: (csvLoop (csvStepHeap h a) rest).1.zip rest from rfl] at hpr
      rcases List.mem_cons.mp hpr with hphead | hptail
      · rw [hphead]
        show heapGet (csvLoop (csvStepHeap h a) rest).2 h.next
          = popKey (heapGet h a) "individual_reactions"
        rw [hIH.2.1 h.next hn_lt, csvStepHeap_get_new]
      · rcases pr with ⟨x, y⟩
        have hy : y ∈ rest := (List.of_mem_zip hptail).2
        have hy_lt : y < h.next := hlt y (List.mem_cons_of_mem a hy)
        have hthis := hIH.2.2.2 (x, y) hptail
        show heapGet (csvLoop (csvStepHeap h a) rest).2 x
          = popKey (heapGet h y) "individual_reactions"
        rw [show heapGet (csvLoop (csvStepHeap h a) rest).2 x
            = popKey (heapGet (csvStepHeap h a) y) "individual_reactions" from hthis,
          csvStepHeap_get_old h a hy_lt]

/-- Claim C10: generate_csv never mutates its input.  For every heap whose
`data` addresses are allocated, after the export (i) every input dict is
unchanged — in particular it still contains whatever `individual_reactions`
entry it had, so a renderer invoked afterwards sees the full per-emoji data —
(ii) the export is skipped (None) exactly for empty input, and (iii) the
returned rows are fresh dicts holding the input contents minus the
`individual_reactions` field. -/
theorem generate_csv_no_mutation (h : Heap) (data : List Nat)
    (hlt : ∀ a ∈ data, a < h.next) :
    (∀ a ∈ data, heapGet (generate_csv h data).2 a = heapGet h a) ∧
    (∀ a ∈ data, ∀ kv ∈ heapGet h a, kv ∈ heapGet (generate_csv h data).2 a) ∧
    ((generate_csv h data).1 = none ↔ data = []) ∧
    (∀ rows, (generate_csv h data).1 = some rows →
      rows.length = data.length ∧
      ∀ pr ∈ rows.zip data,
        heapGet (generate_csv h data).2 pr.1
          = popKey (heapGet h pr.2) "individual_reactions") := by
  by_cases hemp : data.isEmpty
  · have hdata : data = [] := by
      cases data with
      | nil => rfl
      | cons x xs => simp [List.isEmpty] at hemp
    subst hdata
    refine ⟨?_, ?_, ?_, ?_⟩
    · intro a ha
      simp at ha
    · intro a ha
      simp at ha
    · simp [generate_csv]
    · intro rows hrows
      simp [generate_csv] at hrows
  · have hspec := csvLoop_spec data h hlt
    have hgen2 : (generate_csv h data).2 = (csvLoop h data).2 := by
      rw [generate_csv, if_neg hemp]
    have hgen1 : (generate_csv h data).1 = some (csvLoop h data).1 := by
      rw [generate_csv, if_neg hemp]
    refine ⟨?_, ?_, ?_, ?_⟩
    · intro a ha
      rw [hgen2]
      exact hspec.2.1 a (hlt a ha)
    · intro a ha kv hkv
      rw [hgen2, hspec.2.1 a (hlt a ha)]
      exact hkv
    · rw [hgen1]
      constructor
      · intro hc
        exact absurd hc (by simp)
      · intro hc
        subst hc
        simp at hemp
    · intro rows hrows
      rw [hgen1] at hrows
      have hrows2 : rows = (csvLoop h data).1 := by
        injection hrows with h2
        exact h2.symm
      subst hrows2
      refine ⟨hspec.2.2.1, ?_⟩
      intro pr hpr
      rw [hgen2]
      exact hspec.2.2.2 pr hpr

/-- A sample aggregate dict for the witness. -/
def sampleDict : PDict :=
  [("post_link", PVal.s "https://discord.com/channels/9/2/1"),
   ("reactions", PVal.n 2),
   ("individual_reactions", PVal.breakdown [("⭐", 2)])]

/-- A sample heap holding one aggregate dict at address 0. -/
def sampleHeap : Heap := { next := 1, mem := [(0, sampleDict)] }

/-- Claim C10 (witness): the non-mutation conclusion at a concrete heap. -/
theorem generate_csv_no_mutation_witness :
    heapGet (generate_csv sampleHeap [0]).2 0 = heapGet sampleHeap 0 :=
  (generate_csv_no_mutation sampleHeap [0] (by decide)).1 0 (by decide)
